import Mathlib

/-!
Verification of the meal-plan spreadsheet parser (src/parser.js).

The JavaScript source is shallowly embedded: raw cell values become the
four-case sum type `Cell` (string | number | date | null, per the spec's
data model); JS numbers that can reach the parser's date logic are modelled
by their finiteness flag and integer day value (the fractional part of a
spreadsheet serial never influences the emitted calendar date); a JS `Date`
object is modelled by its validity flag and the (year, month, day) civil
triple observed through getFullYear/getMonth/getDate.  Functions that can
raise a JS exception are `Except Unit`-valued; everything else is a plain
function.  JS string operations are modelled on `List Char` (all strings
involved are sequences of BMP code points, where code-unit order and
code-point order agree).
-/

set_option maxRecDepth 40000

/-- Decidable equality for `Except`, needed to evaluate concrete runs of the
embedded parser with `decide`. -/
instance exceptDecEq {ε α : Type} [DecidableEq ε] [DecidableEq α] :
    DecidableEq (Except ε α) := by
  intro a b
  cases a <;> cases b
  case error.error e1 e2 =>
    exact decidable_of_iff (e1 = e2) (by constructor <;> intro h <;> simp_all)
  case ok.ok v1 v2 =>
    exact decidable_of_iff (v1 = v2) (by constructor <;> intro h <;> simp_all)
  all_goals exact isFalse (by intro h; cases h)

/-- The ECMAScript WhiteSpace / LineTerminator class: the characters removed
by `String.prototype.trim` and matched by the regexp class `\s`. -/
def isJsWhitespace (c : Char) : Bool :=
  c = ' ' || c = '\t' || c = '\n' || c = '\r' ||
  c.toNat = 11 || c.toNat = 12 || c.toNat = 160 || c.toNat = 0x1680 ||
  (0x2000 ≤ c.toNat && c.toNat ≤ 0x200A) || c.toNat = 0x2028 || c.toNat = 0x2029 ||
  c.toNat = 0x202F || c.toNat = 0x205F || c.toNat = 0x3000 || c.toNat = 0xFEFF

/-- JS `String.prototype.trim`: strip leading and trailing whitespace. -/
def jsTrim (s : String) : String :=
  String.mk (((s.data.dropWhile isJsWhitespace).reverse.dropWhile isJsWhitespace).reverse)

/-- Code-unit-wise lexicographic comparison of character lists, as used by the
default comparator of JS `Array.prototype.sort` and by the `≤` claims of the
spec (all strings compared here consist of BMP code points). -/
def leChars : List Char → List Char → Bool
  | [], _ => true
  | _ :: _, [] => false
  | a :: s1, b :: s2 =>
    if a.toNat < b.toNat then true
    else if b.toNat < a.toNat then false
    else leChars s1 s2

/-- Lexicographic string comparison (code-unit order). -/
def strLe (s t : String) : Bool := leChars s.data t.data

/-- Prefix test used to implement the substring test of JS
`String.prototype.includes`. -/
def hasPre : List Char → List Char → Bool
  | [], _ => true
  | _ :: _, [] => false
  | a :: p, b :: l => a = b && hasPre p l

/-- JS `hay.includes(pat)`: `pat` occurs contiguously inside `hay`. -/
def containsSub : List Char → List Char → Bool
  | [], pat => pat.isEmpty
  | h :: t, pat => hasPre pat (h :: t) || containsSub t pat

/-- Numeric value of a digit character (char code minus 48), as produced by JS
`Number(...)` on short digit strings. -/
def dvi (c : Char) : Int := (c.toNat : Int) - 48

/-- The raw cell values of the grid (spec §3 RawGrid): string, number, date or
null/undefined.  A number carries its `Number.isFinite` flag and its integer
value; a date carries its validity flag (`!Number.isNaN(d.getTime())`) and its
civil (year, month 1-12, day) as observed by getFullYear/getMonth+1/getDate. -/
inductive Cell where
  | null : Cell
  | text : String → Cell
  | num : Bool → Int → Cell
  | date : Bool → Int → Int → Int → Cell
deriving DecidableEq

/-- Whether a cell is safe for `safeText`: every cell except an invalid
(NaN-timestamped) `Date` object, on which JS `toISOString` throws. -/
def Cell.okCell : Cell → Bool
  | .date false _ _ _ => false
  | _ => true

/-- JS `Date.prototype.toISOString` of a date-only value; the time-of-day part
is abstracted to midnight UTC, which is irrelevant to every property proved
here (the string is only ever scanned for keywords and date patterns). -/
def jsToISOString (y mo d : Int) : String :=
  Int.repr y ++ "-" ++ Int.repr mo ++ "-" ++ Int.repr d ++ "T00:00:00.000Z"

/-- parser.js lines 5-10, `safeText`: null/undefined map to the empty string,
strings map to themselves, a Date maps to its ISO string — JS raises a
RangeError when the Date is invalid, modelled as `.error ()` — and any other
value is stringified (a non-finite number prints as NaN/Infinity; the exact
spelling is irrelevant to all claims, NaN is used). -/
def safeText : Cell → Except Unit String
  | .null => .ok ""
  | .text s => .ok s
  | .date valid y mo d => if valid then .ok (jsToISOString y mo d) else .error ()
  | .num finite v => .ok (if finite then Int.repr v else "NaN")

/-- Total companion of `safeText`, used to state properties of runs in which
no invalid Date occurs (it agrees with `safeText` on every `okCell` cell). -/
def safeTextP : Cell → String
  | .null => ""
  | .text s => s
  | .date _ y mo d => jsToISOString y mo d
  | .num finite v => if finite then Int.repr v else "NaN"

/-- JS `String(m).padStart(2, "0")`. -/
def padStart2 (s : String) : String :=
  if s.length ≥ 2 then s else if s.length = 1 then "0" ++ s else "00"

/-- Two-digit zero-padded rendering used by `toISODate`. -/
def pad2 (n : Int) : String := padStart2 (Int.repr n)

/-- parser.js lines 24-28, `toISODate`: the template
`y-mm-dd` with month and day zero-padded to two characters (the year is
printed as-is, unpadded). -/
def toISODate (y m d : Int) : String :=
  Int.repr y ++ "-" ++ pad2 m ++ "-" ++ pad2 d

/-- Proleptic-Gregorian leap-year test (ECMAScript time values follow the
proleptic Gregorian calendar). -/
def isLeap (y : Int) : Bool :=
  (y % 4 = 0 && y % 100 ≠ 0) || y % 400 = 0

/-- Number of days of month `m` of year `y`. -/
def daysInMonth (y m : Int) : Int :=
  if m = 2 then (if isLeap y then 29 else 28)
  else if m = 4 ∨ m = 6 ∨ m = 9 ∨ m = 11 then 30
  else 31

/-- Days since the JS epoch 1970-01-01 of a civil (year, month, day) triple;
the standard civil-from-days conversion used to model ECMAScript MakeDay. -/
def daysFromCivil (y m d : Int) : Int :=
  let y2 := if m ≤ 2 then y - 1 else y
  let era := y2 / 400
  let yoe := y2 - era * 400
  let doy := (153 * (if m > 2 then m - 3 else m + 9) + 2) / 5 + d - 1
  let doe := yoe * 365 + yoe / 4 - yoe / 100 + doy
  era * 146097 + doe - 719468

/-- Inverse of `daysFromCivil`: civil triple of a day count since 1970-01-01
(used only to model the spreadsheet serial-date decoder, whose output range
is not constrained by any claim). -/
def civilFromDays (z0 : Int) : Int × Int × Int :=
  let z := z0 + 719468
  let era := z / 146097
  let doe := z - era * 146097
  let yoe := (doe - doe / 1460 + doe / 36524 - doe / 146096) / 365
  let y := yoe + era * 400
  let doy := doe - (365 * yoe + yoe / 4 - yoe / 100)
  let mp := (5 * doy + 2) / 153
  let d := doy - (153 * mp + 2) / 5 + 1
  let m := mp + (if mp < 10 then 3 else -9)
  (y + (if m ≤ 2 then 1 else 0), m, d)

/-- JS `Date.prototype.getDay`: 0 = Sunday … 6 = Saturday (1970-01-01 was a
Thursday, weekday 4). -/
def dayOfWeek (y m d : Int) : Int := (daysFromCivil y m d + 4) % 7

/-- The previous calendar day of a civil triple. -/
def prevDay : Int × Int × Int → Int × Int × Int
  | (y, m, d) =>
    if d > 1 then (y, m, d - 1)
    else if m > 1 then (y, m - 1, daysInMonth y (m - 1))
    else (y - 1, 12, 31)

/-- Go back `k` calendar days (models `setDate(getDate() + diff)` for the
non-positive `diff` of `mondayOf`). -/
def prevDays : Nat → Int × Int × Int → Int × Int × Int
  | 0, t => t
  | k + 1, t => prevDays k (prevDay t)

/-- xlsx `SSF.parse_date_code`, date part: serials outside [0, 2958465] are
rejected; serial 60 is the fictitious 1900-02-29; serial 0 decodes to day 0
of January 1900 (rejected downstream by the truthiness guard on `dc.d`);
other serials count days from 1900-01-01 = serial 1, skipping the fictitious
leap day above 60. -/
def parse_date_code (v : Int) : Option (Int × Int × Int) :=
  if v > 2958465 ∨ v < 0 then none
  else if v = 60 then some (1900, 2, 29)
  else if v = 0 then some (1900, 1, 0)
  else
    let date := if v > 60 then v - 1 else v
    some (civilFromDays (daysFromCivil 1900 1 1 + date - 1))

/-- Tail of the regexp `(\d{1,2})\s*\/\s*(\d{1,2})` after the first number has
been read: optional whitespace, a slash, optional whitespace, then one or two
digits (greedy). -/
def tryAfterNum (m : Int) (cs : List Char) : Option (Int × Int) :=
  match cs.dropWhile isJsWhitespace with
  | '/' :: cs2 =>
    (match cs2.dropWhile isJsWhitespace with
     | a :: b :: _ =>
       if a.isDigit then some (m, if b.isDigit then 10 * dvi a + dvi b else dvi a)
       else none
     | [a] => if a.isDigit then some (m, dvi a) else none
     | [] => none)
  | _ => none

/-- One anchored attempt of `(\d{1,2})\s*\/\s*(\d{1,2})`: the first group is
greedy (two digits tried before one, with backtracking). -/
def tryMDAt (cs : List Char) : Option (Int × Int) :=
  match cs with
  | c1 :: rest =>
    if c1.isDigit then
      let two : Option (Int × Int) :=
        match rest with
        | c2 :: rest2 =>
          if c2.isDigit then tryAfterNum (10 * dvi c1 + dvi c2) rest2 else none
        | [] => none
      match two with
      | some r => some r
      | none => tryAfterNum (dvi c1) rest
    else none
  | [] => none

/-- Leftmost match of `(\d{1,2})\s*\/\s*(\d{1,2})` (JS `String.match`
semantics: attempts at each start position, left to right). -/
def matchMD : List Char → Option (Int × Int)
  | [] => none
  | c :: cs =>
    match tryMDAt (c :: cs) with
    | some r => some r
    | none => matchMD cs

/-- Tail of `(\d{4})-(\d{1,2})-(\d{1,2})` after the year and first dash: a
greedy one-or-two digit month, a dash, then a greedy one-or-two digit day. -/
def tryISOTail (y : Int) (cs : List Char) : Option (Int × Int × Int) :=
  let afterMonth : Int → List Char → Option (Int × Int × Int) := fun mo cs2 =>
    match cs2 with
    | '-' :: cs3 =>
      (match cs3 with
       | a :: b :: _ =>
         if a.isDigit then some (y, mo, if b.isDigit then 10 * dvi a + dvi b else dvi a)
         else none
       | [a] => if a.isDigit then some (y, mo, dvi a) else none
       | [] => none)
    | _ => none
  match cs with
  | c1 :: rest =>
    if c1.isDigit then
      let two : Option (Int × Int × Int) :=
        match rest with
        | c2 :: rest2 =>
          if c2.isDigit then afterMonth (10 * dvi c1 + dvi c2) rest2 else none
        | [] => none
      match two with
      | some r => some r
      | none => afterMonth (dvi c1) rest
    else none
  | [] => none

/-- One anchored attempt of `(\d{4})-(\d{1,2})-(\d{1,2})`. -/
def tryISOAt (cs : List Char) : Option (Int × Int × Int) :=
  match cs with
  | a :: b :: c :: d :: '-' :: rest =>
    if a.isDigit && b.isDigit && c.isDigit && d.isDigit then
      tryISOTail (1000 * dvi a + 100 * dvi b + 10 * dvi c + dvi d) rest
    else none
  | _ => none

/-- Leftmost match of `(\d{4})-(\d{1,2})-(\d{1,2})`. -/
def matchISO : List Char → Option (Int × Int × Int)
  | [] => none
  | c :: cs =>
    match tryISOAt (c :: cs) with
    | some r => some r
    | none => matchISO cs

/-- The text branch of `normalizeDateCell` (parser.js lines 44-59), factored
out on the already-coerced string: trim; an empty string is not a date; then
the `M/D` regexp (year from the hint, else the ambient year), then the
`YYYY-M-D` regexp, else no date. -/
def textPathE (currentYear : Int) (baseYearGuess : Option Int) (s0 : String) :
    Except Unit (Option String) :=
  let s := jsTrim s0
  if s = "" then pure none
  else
    match matchMD s.data with
    | some (m, d) =>
      let y := baseYearGuess.getD currentYear
      pure (some (toISODate y m d))
    | none =>
      match matchISO s.data with
      | some (y, m, d) => pure (some (toISODate y m d))
      | none => pure none

/-- Pure value of `textPathE` (which never fails). -/
def textPathP (currentYear : Int) (baseYearGuess : Option Int) (s0 : String) :
    Option String :=
  let s := jsTrim s0
  if s = "" then none
  else
    match matchMD s.data with
    | some (m, d) =>
      let y := baseYearGuess.getD currentYear
      some (toISODate y m d)
    | none =>
      match matchISO s.data with
      | some (y, m, d) => some (toISODate y m d)
      | none => none

/-- parser.js lines 30-60, `normalizeDateCell`.  `currentYear` models the
ambient `new Date().getFullYear()` used when no filename hint is available
(spec §9 documents this ambiguity); it is threaded as an explicit parameter.
Resolution order as in the source: valid Date object first, then finite
number via the serial-date decoder (guarded by the truthiness of all three
decoded fields), then the trimmed text via the `M/D` regexp, then the
`YYYY-M-D` regexp, else no date.  The text branch coerces through `safeText`,
which raises on an invalid Date object. -/
def normalizeDateCell (currentYear : Int) (cell : Cell) (baseYearGuess : Option Int) :
    Except Unit (Option String) :=
  match cell with
  | .date true y mo d => .ok (some (toISODate y mo d))
  | c =>
    let numResult : Option String :=
      match c with
      | .num true v =>
        match parse_date_code v with
        | some (y, mo, d) =>
          if y ≠ 0 ∧ mo ≠ 0 ∧ d ≠ 0 then some (toISODate y mo d) else none
        | none => none
      | _ => none
    match numResult with
    | some s => .ok (some s)
    | none => do
      let s0 ← safeText c
      textPathE currentYear baseYearGuess s0

/-- Split a character list at every newline character.  The source splits on
`\n+`; splitting at single newlines instead produces extra empty pieces,
which the trim-and-filter stage of `splitMenuItems` removes, so the two
pipelines produce identical item lists. -/
def splitNl : List Char → List (List Char)
  | [] => [[]]
  | c :: rest =>
    if c = '\n' then [] :: splitNl rest
    else
      match splitNl rest with
      | [] => [[c]]
      | p :: ps => (c :: p) :: ps

/-- Consume an exact token at the head of a character list, returning the
remainder. -/
def dropTok : List Char → List Char → Option (List Char)
  | [], l => some l
  | _ :: _, [] => none
  | a :: p, b :: l => if a = b then dropTok p l else none

/-- The header-noise test of parser.js line 71: the regexp
`^\s*(조식|중식|석식|야식|샐러드|A\s*코너|B\s*코너)\s*$` with the
case-insensitive flag (which only affects the Latin letters A and B). -/
def isHeaderToken (p : String) : Bool :=
  let cs := p.data.dropWhile isJsWhitespace
  let fullTok : List Char → Bool := fun tok =>
    match dropTok tok cs with
    | some rest => (rest.dropWhile isJsWhitespace).isEmpty
    | none => false
  let cornerTok : Char → Char → Bool := fun up low =>
    match cs with
    | c :: rest =>
      if c = up ∨ c = low then
        match dropTok "코너".data (rest.dropWhile isJsWhitespace) with
        | some rest2 => (rest2.dropWhile isJsWhitespace).isEmpty
        | none => false
      else false
    | [] => false
  fullTok "조식".data || fullTok "중식".data || fullTok "석식".data ||
  fullTok "야식".data || fullTok "샐러드".data ||
  cornerTok 'A' 'a' || cornerTok 'B' 'b'

/-- parser.js lines 62-72, `splitMenuItems`: coerce to text (may raise on an
invalid Date), drop carriage returns, replace non-breaking spaces by ordinary
spaces, trim; split at newlines, trim each piece, drop empties, then drop
pieces that are exactly a known header label. -/
def splitMenuItems (cell : Cell) : Except Unit (List String) := do
  let raw ← safeText cell
  let t := jsTrim (String.mk ((raw.data.filter (fun c => c ≠ '\r')).map
    (fun c => if c.toNat = 160 then ' ' else c)))
  if t = "" then return []
  else
    let parts := ((splitNl t.data).map (fun p => jsTrim (String.mk p))).filter
      (fun p => p ≠ "")
    return parts.filter (fun p => !(isHeaderToken p))

/-- Total companion of `splitMenuItems` (agrees with it on every `okCell`
cell). -/
def splitMenuItemsP (cell : Cell) : List String :=
  let raw := safeTextP cell
  let t := jsTrim (String.mk ((raw.data.filter (fun c => c ≠ '\r')).map
    (fun c => if c.toNat = 160 then ' ' else c)))
  if t = "" then []
  else
    let parts := ((splitNl t.data).map (fun p => jsTrim (String.mk p))).filter
      (fun p => p ≠ "")
    parts.filter (fun p => !(isHeaderToken p))

/-- The accumulating per-keyword column sets of `detectHeaderColumns`
(parser.js line 84): JS `Set` objects, modelled as insertion-ordered
duplicate-free lists. -/
structure FoundSets where
  breakfast : List Nat
  lunch : List Nat
  dinner : List Nat
  night : List Nat
  salad : List Nat
  corner : List Nat
deriving DecidableEq

/-- JS `Set.prototype.add`: append if not already present. -/
def setAdd (l : List Nat) (c : Nat) : List Nat :=
  if l.contains c then l else l ++ [c]

/-- The detector's output (parser.js lines 99-105): the five meal categories,
each a sorted list of distinct column indices; the corner set is dropped. -/
structure Detected where
  breakfast : List Nat
  lunch : List Nat
  dinner : List Nat
  night : List Nat
  salad : List Nat
deriving DecidableEq

/-- Cell normalization of parser.js line 90: `replace(/\s+/g, " ").trim()`,
modelled as mapping every whitespace character to a space, collapsing runs of
spaces, then trimming. -/
def collapseSpaces : List Char → List Char
  | [] => []
  | c :: rest =>
    match collapseSpaces rest with
    | [] => [c]
    | d :: ds => if c = ' ' ∧ d = ' ' then d :: ds else c :: d :: ds

/-- Whitespace-collapsed, trimmed text of a header cell. -/
def normCell (s : String) : String :=
  jsTrim (String.mk (collapseSpaces (s.data.map
    (fun c => if isJsWhitespace c then ' ' else c))))

/-- Process one header cell (parser.js lines 90-95): empty cells are skipped;
otherwise each keyword family whose keyword occurs as a substring records the
column index in its set.  Each family has exactly one keyword. -/
def scanCell (f : FoundSets) (c : Nat) (s : String) : FoundSets :=
  let t := normCell s
  if t = "" then f
  else
    { breakfast := if containsSub t.data "조식".data then setAdd f.breakfast c else f.breakfast
      lunch := if containsSub t.data "중식".data then setAdd f.lunch c else f.lunch
      dinner := if containsSub t.data "석식".data then setAdd f.dinner c else f.dinner
      night := if containsSub t.data "야식".data then setAdd f.night c else f.night
      salad := if containsSub t.data "샐러드".data then setAdd f.salad c else f.salad
      corner := if containsSub t.data "코너".data then setAdd f.corner c else f.corner }

/-- Scan the cells of one row left to right, `c` being the column index of
the first cell of `row`. -/
def scanRowAux (f : FoundSets) (c : Nat) : List Cell → Except Unit FoundSets
  | [] => .ok f
  | cell :: rest => do
    let s ← safeText cell
    scanRowAux (scanCell f c s) (c + 1) rest

/-- Scan a prefix of the grid row by row. -/
def scanRows (f : FoundSets) : List (List Cell) → Except Unit FoundSets
  | [] => .ok f
  | row :: rest => do
    let f2 ← scanRowAux f 0 row
    scanRows f2 rest

/-- Ascending insertion for sorting column indices (JS numeric sort
`(a, b) => a - b`). -/
def insertNat (x : Nat) : List Nat → List Nat
  | [] => [x]
  | y :: ys => if x ≤ y then x :: y :: ys else y :: insertNat x ys

/-- Ascending sort of column indices. -/
def sortNat (l : List Nat) : List Nat := l.foldr insertNat []

/-- The all-empty initial keyword sets. -/
def emptyFound : FoundSets := ⟨[], [], [], [], [], []⟩

/-- parser.js lines 74-106, `detectHeaderColumns`: scan at most the first 35
rows, accumulate per-family column sets, and return the five meal families
sorted ascending — the corner set is recorded during the scan but excluded
from the output. -/
def detectHeaderColumns (rows : List (List Cell)) : Except Unit Detected := do
  let f ← scanRows emptyFound (rows.take 35)
  return { breakfast := sortNat f.breakfast
           lunch := sortNat f.lunch
           dinner := sortNat f.dinner
           night := sortNat f.night
           salad := sortNat f.salad }

/-- The resolved column map used by the accumulator: meal categories plus the
labelled extras columns (spec §3 ColumnMap). -/
structure ColumnMap where
  breakfast : List Nat
  lunch : List Nat
  dinner : List Nat
  extras : List (String × List Nat)
deriving DecidableEq

/-- parser.js lines 108-125, `defaultColumnsForSite`: the "main" template and
the cancer template used for every other site id. -/
def defaultColumnsForSite (site : String) : ColumnMap :=
  if site = "main" then
    { breakfast := [1], lunch := [3, 4], dinner := [5, 6],
      extras := [("night", [7, 8])] }
  else
    { breakfast := [1, 2], lunch := [3, 4], dinner := [5, 6],
      extras := [("salad", [7]), ("night", [8])] }

/-- parser.js lines 148-156: each detected meal-category list overrides the
per-site fallback exactly when non-empty; extras always come from the
fallback map. -/
def resolveCols (detected : Detected) (site : String) : ColumnMap :=
  let fallback := defaultColumnsForSite site
  { breakfast := if detected.breakfast ≠ [] then detected.breakfast else fallback.breakfast
    lunch := if detected.lunch ≠ [] then detected.lunch else fallback.lunch
    dinner := if detected.dinner ≠ [] then detected.dinner else fallback.dinner
    extras := fallback.extras }

/-- Strict parse of `new Date(s + "T00:00:00")` on the strings reaching
`mondayOf`: the ECMAScript Date Time String Format demands exactly four year
digits, two month digits and two day digits, and a real calendar date;
anything else yields an Invalid Date (engines' legacy fallback parsers also
reject the out-of-range dates produced by this parser).  A local-time
midnight's getFullYear/getMonth/getDate observe exactly the civil triple of
the string, independent of time zone. -/
def jsDateParseL : List Char → Option (Int × Int × Int)
  | [y1, y2, y3, y4, '-', m1, m2, '-', d1, d2] =>
    if y1.isDigit && y2.isDigit && y3.isDigit && y4.isDigit &&
       m1.isDigit && m2.isDigit && d1.isDigit && d2.isDigit then
      let y := 1000 * dvi y1 + 100 * dvi y2 + 10 * dvi y3 + dvi y4
      let mo := 10 * dvi m1 + dvi m2
      let d := 10 * dvi d1 + dvi d2
      if 1 ≤ mo ∧ mo ≤ 12 ∧ 1 ≤ d ∧ d ≤ daysInMonth y mo then some (y, mo, d)
      else none
    else none
  | _ => none

/-- Wrapper of `jsDateParseL` on strings. -/
def jsDateParse (s : String) : Option (Int × Int × Int) :=
  jsDateParseL s.data

/-- parser.js lines 127-133, `mondayOf`: parse the ISO date at local
midnight; go back `6` days from a Sunday and `weekday - 1` days otherwise,
and re-render.  An unparseable input leaves every Date field NaN, and the JS
template then renders the string NaN-NaN-NaN. -/
def mondayOf (dateISO : String) : String :=
  match jsDateParse dateISO with
  | none => "NaN-NaN-NaN"
  | some (y, m, d) =>
    let day := dayOfWeek y m d
    let k : Nat := (if day = 0 then 6 else day - 1).toNat
    let t := prevDays k (y, m, d)
    toISODate t.1 t.2.1 t.2.2

/-- The filename date hint record of parser.js line 21. -/
structure BaseDate where
  y : Int
  mo : Int
  d : Int
deriving DecidableEq

/-- Node `path.basename`: the part after the last slash. -/
def jsBasename (s : String) : String :=
  String.mk ((s.data.reverse.takeWhile (fun c => c ≠ '/')).reverse)

/-- Six leading digit characters plus the remainder, if present. -/
def takeSix : List Char →
    Option ((Char × Char × Char × Char × Char × Char) × List Char)
  | a :: b :: c :: d :: e :: f :: rest =>
    if a.isDigit && b.isDigit && c.isDigit && d.isDigit && e.isDigit && f.isDigit
    then some ((a, b, c, d, e, f), rest) else none
  | _ => none

/-- Leftmost match of the regexp `(^|\D)(\d{6})(\D|$)`: the first position —
either the start of the string or preceded by a non-digit — carrying six
digits not followed by a further digit.  `prev` is the character before the
current position, if any. -/
def findSixAux : Option Char → List Char →
    Option (Char × Char × Char × Char × Char × Char)
  | _, [] => none
  | prev, c :: rest =>
    let here :=
      if prev.all (fun p => !p.isDigit) then
        match takeSix (c :: rest) with
        | some (six, after) =>
          if after.head?.all (fun q => !q.isDigit) then some six else none
        | none => none
      else none
    match here with
    | some six => some six
    | none => findSixAux (some c) rest

/-- parser.js lines 12-22, `parseBaseDateFromFilename`: find a six-digit run
in the basename, read it as YYMMDD with the year offset from 2000, and reject
the hint when any of the three fields is zero (the `!y || !mo || !d` guard;
`y` is never zero). -/
def parseBaseDateFromFilename (filename : String) : Option BaseDate :=
  match findSixAux none (jsBasename filename).data with
  | none => none
  | some (a, b, c, d, e, f) =>
    let y := 2000 + (10 * dvi a + dvi b)
    let mo := 10 * dvi c + dvi d
    let dd := 10 * dvi e + dvi f
    if y = 0 ∨ mo = 0 ∨ dd = 0 then none else some ⟨y, mo, dd⟩

/-- The per-day accumulator (parser.js line 170): the three meal buckets plus
the labelled extras map, all in insertion order. -/
structure DayMenuAcc where
  breakfast : List String
  lunch : List String
  dinner : List String
  extras : List (String × List String)
deriving DecidableEq

/-- A cleaned-up day of the final document (spec §3 DayMenu): `extras` is
`none` exactly when the source deleted the day's `extras` object. -/
structure DayMenu where
  breakfast : List String
  lunch : List String
  dinner : List String
  extras : Option (List (String × List String))
deriving DecidableEq

/-- The final document (spec §3 MealDocument).  The `source.sheet` field of
the JS object is tied to sheet selection inside the xlsx container, which is
outside this model (the grid is the model's input); the remaining fields are
kept. -/
structure MealDoc where
  site : String
  filename : String
  weekStart : Option String
  days : List (String × DayMenu)
deriving DecidableEq

/-- The loop state of parser.js lines 158-161: the current date anchor, the
insertion-ordered map of days (JS object with non-index string keys) and the
ordered list of all dates seen. -/
structure FoldState where
  currentDate : Option String
  days : List (String × DayMenuAcc)
  allDates : List String
deriving DecidableEq

/-- The fresh day bucket of parser.js line 170. -/
def emptyDayAcc : DayMenuAcc := ⟨[], [], [], []⟩

/-- The initial fold state. -/
def initState : FoldState := ⟨none, [], []⟩

/-- Key-membership test for an insertion-ordered association list (JS
`!days[k]`). -/
def containsKey {α : Type} (l : List (String × α)) (k : String) : Bool :=
  l.any (fun p => p.1 = k)

/-- Lookup with default in an association list. -/
def lookupD {α : Type} (l : List (String × α)) (k : String) (dflt : α) : α :=
  match l with
  | [] => dflt
  | p :: rest => if p.1 = k then p.2 else lookupD rest k dflt

/-- Replace the value stored at an existing key, preserving entry order. -/
def setAssoc {α : Type} (l : List (String × α)) (k : String) (v : α) :
    List (String × α) :=
  l.map (fun p => if p.1 = k then (p.1, v) else p)

/-- Append items to the sequence stored under a label, creating the label at
the end of the map when absent (JS property creation order). -/
def assocAppend (l : List (String × List String)) (k : String)
    (items : List String) : List (String × List String) :=
  if containsKey l k then
    l.map (fun p => if p.1 = k then (p.1, p.2 ++ items) else p)
  else l ++ [(k, items)]

/-- Indexing into a row: a missing cell reads as undefined, which behaves
exactly like a null cell in every consumer (`safeText` maps both to the
empty string). -/
def cellAt (row : List Cell) (c : Nat) : Cell := row.getD c Cell.null

/-- parser.js lines 176-187, `addTo` for one meal bucket: walk the configured
column indices in order, split each cell's text and append the items (an
empty item list appends nothing). -/
def accumCols (row : List Cell) (cols : List Nat) (bucket : List String) :
    Except Unit (List String) :=
  cols.foldlM (fun b c => do
    let items ← splitMenuItems (cellAt row c)
    return b ++ items) bucket

/-- parser.js lines 194-201, the extras accumulation for one labelled column
list: non-empty item lists create the label on demand and append to it. -/
def accumExtrasCols (row : List Cell) (ek : String) (cols : List Nat)
    (ex : List (String × List String)) : Except Unit (List (String × List String)) :=
  cols.foldlM (fun ex2 c => do
    let items ← splitMenuItems (cellAt row c)
    if items = [] then return ex2
    else return (assocAppend ex2 ek items)) ex

/-- All extras labels of one continuation row, in configured order. -/
def accumExtras (row : List Cell) (excols : List (String × List Nat))
    (ex : List (String × List String)) : Except Unit (List (String × List String)) :=
  excols.foldlM (fun ex2 p => accumExtrasCols row p.1 p.2 ex2) ex

/-- One iteration of the row loop of parser.js lines 163-202: a row whose
first column normalizes to a date becomes the new anchor (recording the date
and creating its bucket if absent); before the first anchor every other row
is skipped; otherwise the row is a continuation of the current date and its
configured columns are accumulated. -/
def processRow (currentYear : Int) (byg : Option Int) (mealCols : ColumnMap)
    (st : FoldState) (row : List Cell) : Except Unit FoldState := do
  let dateISO ← normalizeDateCell currentYear (cellAt row 0) byg
  match dateISO with
  | some d =>
    return { currentDate := some d
             days := if containsKey st.days d then st.days
                     else st.days ++ [(d, emptyDayAcc)]
             allDates := st.allDates ++ [d] }
  | none =>
    match st.currentDate with
    | none => return st
    | some cur => do
      let acc := lookupD st.days cur emptyDayAcc
      let b ← accumCols row mealCols.breakfast acc.breakfast
      let l ← accumCols row mealCols.lunch acc.lunch
      let dn ← accumCols row mealCols.dinner acc.dinner
      let ex ← accumExtras row mealCols.extras acc.extras
      return { st with days := setAssoc st.days cur ⟨b, l, dn, ex⟩ }

/-- parser.js lines 205-216, `dedupe`, with its seen-set threaded explicitly:
trim each item, drop empties, keep only first occurrences (case-sensitive),
preserving order. -/
def dedupeGo (seen : List String) : List String → List String
  | [] => []
  | x :: xs =>
    let k := jsTrim x
    if k = "" then dedupeGo seen xs
    else if seen.contains k then dedupeGo seen xs
    else k :: dedupeGo (k :: seen) xs

/-- The deduplication pass applied to every bucket. -/
def dedupe (arr : List String) : List String := dedupeGo [] arr

/-- parser.js lines 218-227: dedupe the three meal buckets and every extras
label, drop extras labels that became empty, and drop the extras map itself
when no label remains. -/
def cleanupDay (m : DayMenuAcc) : DayMenu :=
  let ex := (m.extras.map (fun p => (p.1, dedupe p.2))).filter (fun p => p.2 ≠ [])
  { breakfast := dedupe m.breakfast
    lunch := dedupe m.lunch
    dinner := dedupe m.dinner
    extras := if ex = [] then none else some ex }

/-- First-insertion-order deduplication (JS `Array.from(new Set(...))`),
with the seen-set explicit. -/
def dedupKeep (seen : List String) : List String → List String
  | [] => []
  | x :: xs =>
    if seen.contains x then dedupKeep seen xs
    else x :: dedupKeep (x :: seen) xs

/-- Lexicographic insertion for string sorting. -/
def insertStr (x : String) : List String → List String
  | [] => [x]
  | y :: ys => if strLe x y then x :: y :: ys else y :: insertStr x ys

/-- JS `Array.prototype.sort` with its default lexicographic comparator, on a
duplicate-free list. -/
def sortStr (l : List String) : List String := l.foldr insertStr []

/-- parser.js lines 135-242, `parseMealExcel`, from the materialized grid on:
opening the xlsx container and selecting the worksheet are I/O outside this
model, so the function takes the grid of raw cells directly, plus the
original filename and site id; `currentYear` models the ambient calendar
year (see `normalizeDateCell`). -/
def parseMealExcel (currentYear : Int) (rows : List (List Cell))
    (originalFilename site : String) : Except Unit MealDoc := do
  let base := parseBaseDateFromFilename originalFilename
  let baseYearGuess := base.map (fun b => b.y)
  let detected ← detectHeaderColumns rows
  let mealCols := resolveCols detected site
  let st ← rows.foldlM (processRow currentYear baseYearGuess mealCols) initState
  let days := st.days.map (fun p => (p.1, cleanupDay p.2))
  let uniqueDates := sortStr (dedupKeep [] st.allDates)
  let weekStart :=
    match uniqueDates with
    | [] => none
    | u :: _ => some (mondayOf u)
  return { site := site, filename := originalFilename,
           weekStart := weekStart, days := days }

/-- A date key in strict ISO shape whose year has four digits and does not
start the proleptic era: the precondition of the amended Monday invariant. -/
def validKey (s : String) : Bool :=
  match jsDateParse s with
  | some (y, _, _) => 1001 ≤ y && y ≤ 9999
  | none => false

/-- The spec's Monday predicate on an ISO date string: it parses as a real
calendar date whose weekday is Monday. -/
def isMondayKey (s : String) : Bool :=
  match jsDateParse s with
  | some (y, m, d) => dayOfWeek y m d = 1
  | none => false

/-- Day count since the epoch of an ISO date string, for stating distances
between date keys. -/
def civilOfKey (s : String) : Option Int :=
  (jsDateParse s).map (fun t => daysFromCivil t.1 t.2.1 t.2.2)

/-- The four digit characters of a year in [1000, 9999]. -/
def year4 (y : Int) : List Char :=
  [Nat.digitChar (y.toNat / 1000), Nat.digitChar (y.toNat / 100 % 10),
   Nat.digitChar (y.toNat / 10 % 10), Nat.digitChar (y.toNat % 10)]

/-- The two digit characters of the zero-padded rendering of a number in
[0, 99]. -/
def mm2 (m : Int) : List Char :=
  [Nat.digitChar (m.toNat / 10), Nat.digitChar (m.toNat % 10)]

/-- A real calendar date. -/
def ValidTriple (y m d : Int) : Prop :=
  1 ≤ m ∧ m ≤ 12 ∧ 1 ≤ d ∧ d ≤ daysInMonth y m

/-- Chronological (equivalently lexicographic on (y, m, d)) order of civil
triples. -/
def tripleLe (t1 t2 : Int × Int × Int) : Prop :=
  t1.1 < t2.1 ∨ (t1.1 = t2.1 ∧ (t1.2.1 < t2.2.1 ∨ (t1.2.1 = t2.2.1 ∧ t1.2.2 ≤ t2.2.2)))

/-- Pure companion of `accumExtrasCols`. -/
def accumExtrasColsP (row : List Cell) (ek : String) (cols : List Nat)
    (ex : List (String × List String)) : List (String × List String) :=
  cols.foldl (fun ex2 c =>
    let items := splitMenuItemsP (cellAt row c)
    if items = [] then ex2 else assocAppend ex2 ek items) ex

/-- Pure companion of `accumExtras`. -/
def accumExtrasP (row : List Cell) (excols : List (String × List Nat))
    (ex : List (String × List String)) : List (String × List String) :=
  excols.foldl (fun ex2 p => accumExtrasColsP row p.1 p.2 ex2) ex

/-- The keys of `days` are exactly the dates recorded in `allDates`. -/
def StInv (st : FoldState) : Prop :=
  ∀ x : String, containsKey st.days x = true ↔ x ∈ st.allDates

/-- Pure companion of `normalizeDateCell` on cells that raise no exception. -/
def normalizeDateCellP (currentYear : Int) (cell : Cell) (baseYearGuess : Option Int) :
    Option String :=
  match cell with
  | .date true y mo d => some (toISODate y mo d)
  | c =>
    let numResult : Option String :=
      match c with
      | .num true v =>
        match parse_date_code v with
        | some (y, mo, d) =>
          if y ≠ 0 ∧ mo ≠ 0 ∧ d ≠ 0 then some (toISODate y mo d) else none
        | none => none
      | _ => none
    match numResult with
    | some s => some s
    | none => textPathP currentYear baseYearGuess (safeTextP c)

/-- One keyword family's set update for one normalized cell. -/
def fieldStep (kw : String) (l : List Nat) (c : Nat) (s : String) : List Nat :=
  if containsSub (normCell s).data kw.data = true then setAdd l c else l

/-- A keyword family hits column `x` somewhere in the scan window of the
grid. -/
def gridHits (rows : List (List Cell)) (kw : String) (x : Nat) : Prop :=
  ∃ row ∈ rows.take 35, ∃ cell, row.get? x = some cell ∧
    containsSub (normCell (safeTextP cell)).data kw.data = true

/-! ### Generic facts about trimming, comparison, sorting and deduplication -/

theorem dropWhile_of_head_false {p : Char → Bool} {a : Char} {l : List Char}
    (h : p a = false) : (a :: l).dropWhile p = a :: l := by
  simp [List.dropWhile_cons, h]

theorem dropWhile_head_false {p : Char → Bool} {l : List Char} :
    l.dropWhile p = [] ∨
      ∃ a t, l.dropWhile p = a :: t ∧ p a = false := by
  induction l with
  | nil => exact Or.inl rfl
  | cons a t ih =>
    by_cases h : p a
    · simpa [List.dropWhile_cons, h] using ih
    · exact Or.inr ⟨a, t, by simp [List.dropWhile_cons, h], by simpa using h⟩

theorem dropWhile_getLast? {p : Char → Bool} {l : List Char} :
    l.dropWhile p = [] ∨ (l.dropWhile p).getLast? = l.getLast? := by
  induction l with
  | nil => exact Or.inl rfl
  | cons a t ih =>
    by_cases h : p a
    · rcases ih with h2 | h2
      · exact Or.inl (by simp [List.dropWhile_cons, h, h2])
      · by_cases ht : t.dropWhile p = []
        · exact Or.inl (by simp [List.dropWhile_cons, h, ht])
        · refine Or.inr ?_
          have ht2 : t ≠ [] := by
            intro h3; exact ht (by simp [h3])
          rw [List.dropWhile_cons]
          simp only [h, if_true]
          rw [h2]
          obtain ⟨b, t2, rfl⟩ := List.exists_cons_of_ne_nil ht2
          simp
    · exact Or.inr (by simp [List.dropWhile_cons, h])

theorem dropWhile_id_of_trimmed {p : Char → Bool} {l : List Char}
    (h : ∀ a, l.head? = some a → p a = false) : l.dropWhile p = l := by
  cases l with
  | nil => rfl
  | cons a t => exact dropWhile_of_head_false (h a rfl)

/-- List-level core of trim: dropping whitespace from the front, reversing,
dropping from the front again and reversing back is idempotent. -/
theorem trimChars_idem (p : Char → Bool) (cs : List Char) :
    (((((cs.dropWhile p).reverse.dropWhile p).reverse.dropWhile p).reverse.dropWhile p).reverse) =
      ((cs.dropWhile p).reverse.dropWhile p).reverse := by
  set A := cs.dropWhile p with hA
  set B := A.reverse.dropWhile p with hB
  have hBhead : ∀ a, B.head? = some a → p a = false := by
    intro a ha
    rcases dropWhile_head_false (p := p) (l := A.reverse) with h | ⟨b, t, h1, h2⟩
    · rw [hB, h] at ha; cases ha
    · rw [hB, h1] at ha; simp at ha; rw [← ha]; exact h2
  have hBlast : ∀ a, B.getLast? = some a → p a = false := by
    intro a ha
    have hBne : B ≠ [] := by intro h; rw [h] at ha; cases ha
    have hAne : A ≠ [] := by
      intro h
      apply hBne
      rw [hB, h]
      rfl
    rcases dropWhile_getLast? (p := p) (l := A.reverse) with h | h
    · exact absurd (hB ▸ h) hBne
    · have h3 : B.getLast? = A.reverse.getLast? := hB ▸ h
      rcases dropWhile_head_false (p := p) (l := cs) with h4 | ⟨b, t, h4, h5⟩
      · exact absurd (hA ▸ h4) hAne
      · have hAeq : A = b :: t := hA ▸ h4
        have h6 : A.reverse.getLast? = some b := by rw [hAeq]; simp
        rw [h3, h6] at ha
        cases ha
        exact h5
  have h1 : B.reverse.dropWhile p = B.reverse := by
    apply dropWhile_id_of_trimmed
    intro a ha
    rw [List.head?_reverse] at ha
    exact hBlast a ha
  have h2 : B.dropWhile p = B := by
    apply dropWhile_id_of_trimmed
    intro a ha
    exact hBhead a ha
  rw [h1, List.reverse_reverse, h2]

/-- Trimming is idempotent. -/
theorem jsTrim_idem (s : String) : jsTrim (jsTrim s) = jsTrim s := by
  rcases s with ⟨cs⟩
  show String.mk _ = String.mk _
  exact congrArg String.mk (trimChars_idem isJsWhitespace cs)

theorem leChars_refl (l : List Char) : leChars l l = true := by
  induction l with
  | nil => rfl
  | cons a t ih => simp [leChars, ih]

theorem strLe_refl (s : String) : strLe s s = true := leChars_refl s.data

theorem leChars_total (l1 l2 : List Char) :
    leChars l1 l2 = true ∨ leChars l2 l1 = true := by
  induction l1 generalizing l2 with
  | nil => exact Or.inl rfl
  | cons a t ih =>
    cases l2 with
    | nil => exact Or.inr rfl
    | cons b t2 =>
      by_cases h1 : a.toNat < b.toNat
      · exact Or.inl (by simp [leChars, h1])
      · by_cases h2 : b.toNat < a.toNat
        · exact Or.inr (by simp [leChars, h2])
        · rcases ih t2 with h | h
          · exact Or.inl (by simp [leChars, h1, h2, h])
          · exact Or.inr (by simp [leChars, h1, h2, h])

theorem strLe_total (s t : String) : strLe s t = true ∨ strLe t s = true :=
  leChars_total s.data t.data

theorem leChars_trans {l1 l2 l3 : List Char} (h1 : leChars l1 l2 = true)
    (h2 : leChars l2 l3 = true) : leChars l1 l3 = true := by
  induction l1 generalizing l2 l3 with
  | nil => rfl
  | cons a t ih =>
    cases l2 with
    | nil => simp [leChars] at h1
    | cons b t2 =>
      cases l3 with
      | nil => simp [leChars] at h2
      | cons c t3 =>
        simp only [leChars] at h1 h2 ⊢
        by_cases hab : a.toNat < b.toNat
        · rw [if_pos hab] at h1
          by_cases hbc : b.toNat < c.toNat
          · rw [if_pos (show a.toNat < c.toNat by omega)]
          · rw [if_neg hbc] at h2
            by_cases hcb : c.toNat < b.toNat
            · rw [if_pos hcb] at h2; cases h2
            · rw [if_pos (show a.toNat < c.toNat by omega)]
        · rw [if_neg hab] at h1
          by_cases hba : b.toNat < a.toNat
          · rw [if_pos hba] at h1; cases h1
          · rw [if_neg hba] at h1
            by_cases hbc : b.toNat < c.toNat
            · rw [if_pos (show a.toNat < c.toNat by omega)]
            · rw [if_neg hbc] at h2
              by_cases hcb : c.toNat < b.toNat
              · rw [if_pos hcb] at h2; cases h2
              · rw [if_neg hcb] at h2
                rw [if_neg (show ¬ a.toNat < c.toNat by omega),
                    if_neg (show ¬ c.toNat < a.toNat by omega)]
                exact ih h1 h2

theorem strLe_trans {s t u : String} (h1 : strLe s t = true)
    (h2 : strLe t u = true) : strLe s u = true :=
  leChars_trans h1 h2

theorem mem_insertStr {x y : String} {l : List String} :
    x ∈ insertStr y l ↔ x = y ∨ x ∈ l := by
  induction l with
  | nil => simp [insertStr]
  | cons z zs ih =>
    simp only [insertStr]
    by_cases h : strLe y z = true
    · rw [if_pos h]; simp
    · rw [if_neg h]
      simp only [List.mem_cons, ih]
      tauto

theorem insertStr_pairwise {y : String} {l : List String}
    (h : List.Pairwise (fun a b => strLe a b = true) l) :
    List.Pairwise (fun a b => strLe a b = true) (insertStr y l) := by
  induction l with
  | nil => simp [insertStr]
  | cons z zs ih =>
    rcases List.pairwise_cons.mp h with ⟨hz, hzs⟩
    simp only [insertStr]
    by_cases hc : strLe y z = true
    · rw [if_pos hc]
      refine List.pairwise_cons.mpr ⟨?_, h⟩
      intro b hb
      rcases List.mem_cons.mp hb with rfl | hb2
      · exact hc
      · exact strLe_trans hc (hz b hb2)
    · rw [if_neg hc]
      refine List.pairwise_cons.mpr ⟨?_, ih hzs⟩
      intro b hb
      rcases mem_insertStr.mp hb with rfl | hb2
      · rcases strLe_total z b with h2 | h2
        · exact h2
        · exact absurd h2 hc
      · exact hz b hb2

theorem sortStr_pairwise (l : List String) :
    List.Pairwise (fun a b => strLe a b = true) (sortStr l) := by
  induction l with
  | nil => exact List.Pairwise.nil
  | cons x xs ih => exact insertStr_pairwise ih

theorem mem_sortStr {x : String} {l : List String} :
    x ∈ sortStr l ↔ x ∈ l := by
  induction l with
  | nil => simp [sortStr]
  | cons y ys ih =>
    simp only [sortStr, List.foldr_cons] at *
    rw [mem_insertStr, ih]
    simp

theorem sortStr_head_le {l : List String} {u : String} {rest : List String}
    (h : sortStr l = u :: rest) : ∀ x ∈ sortStr l, strLe u x = true := by
  intro x hx
  rw [h] at hx
  rcases List.mem_cons.mp hx with rfl | hx2
  · exact strLe_refl x
  · have hp := sortStr_pairwise l
    rw [h] at hp
    exact (List.pairwise_cons.mp hp).1 x hx2

theorem sortStr_nil_iff {l : List String} : sortStr l = [] ↔ l = [] := by
  constructor
  · intro h
    cases l with
    | nil => rfl
    | cons x xs =>
      have : x ∈ sortStr (x :: xs) := mem_sortStr.mpr (by simp)
      rw [h] at this
      cases this
  · intro h; rw [h]; rfl

theorem mem_dedupKeep {x : String} {seen l : List String} :
    x ∈ dedupKeep seen l ↔ x ∈ l ∧ x ∉ seen := by
  induction l generalizing seen with
  | nil => simp [dedupKeep]
  | cons y ys ih =>
    simp only [dedupKeep]
    by_cases h : seen.contains y = true
    · have hy : y ∈ seen := by simpa using h
      rw [if_pos h, ih]
      simp only [List.mem_cons]
      constructor
      · rintro ⟨h1, h2⟩
        exact ⟨Or.inr h1, h2⟩
      · rintro ⟨h1 | h1, h2⟩
        · exact absurd (h1 ▸ hy) h2
        · exact ⟨h1, h2⟩
    · have hy : y ∉ seen := by simpa using h
      rw [if_neg h]
      simp only [List.mem_cons, ih]
      constructor
      · rintro (rfl | ⟨h1, h2⟩)
        · exact ⟨Or.inl rfl, hy⟩
        · refine ⟨Or.inr h1, ?_⟩
          intro hc
          exact h2 (by simp [hc])
      · rintro ⟨h1 | h1, h2⟩
        · exact Or.inl h1
        · by_cases hxy : x = y
          · exact Or.inl hxy
          · refine Or.inr ⟨h1, ?_⟩
            intro hc
            have hc2 : x = y ∨ x ∈ seen := by simpa using hc
            rcases hc2 with rfl | hc3
            · exact hxy rfl
            · exact h2 hc3

theorem dedupKeep_nil_iff {l : List String} : dedupKeep [] l = [] ↔ l = [] := by
  cases l with
  | nil => simp [dedupKeep]
  | cons x xs =>
    simp [dedupKeep]

theorem dedupeGo_mem {x : String} {seen l : List String}
    (h : x ∈ dedupeGo seen l) : jsTrim x = x ∧ x ≠ "" ∧ x ∉ seen := by
  induction l generalizing seen with
  | nil => cases h
  | cons y ys ih =>
    simp only [dedupeGo] at h
    by_cases h0 : jsTrim y = ""
    · rw [if_pos h0] at h
      exact ih h
    · rw [if_neg h0] at h
      by_cases h1 : seen.contains (jsTrim y) = true
      · rw [if_pos h1] at h
        exact ih h
      · rw [if_neg h1] at h
        rcases List.mem_cons.mp h with rfl | h2
        · refine ⟨jsTrim_idem y, h0, ?_⟩
          simpa using h1
        · rcases ih h2 with ⟨ha, hb, hc⟩
          refine ⟨ha, hb, ?_⟩
          intro hx
          exact hc (by simp [hx])

theorem dedupeGo_nodup (seen l : List String) : (dedupeGo seen l).Nodup := by
  induction l generalizing seen with
  | nil => exact List.nodup_nil
  | cons y ys ih =>
    simp only [dedupeGo]
    by_cases h0 : jsTrim y = ""
    · rw [if_pos h0]; exact ih seen
    · rw [if_neg h0]
      by_cases h1 : seen.contains (jsTrim y) = true
      · rw [if_pos h1]; exact ih seen
      · rw [if_neg h1]
        refine List.nodup_cons.mpr ⟨?_, ih _⟩
        intro hmem
        rcases dedupeGo_mem hmem with ⟨_, _, hc⟩
        exact hc (by simp)

theorem dedupeGo_fix {seen m : List String}
    (htrim : ∀ x ∈ m, jsTrim x = x ∧ x ≠ "")
    (hnd : m.Nodup) (hseen : ∀ x ∈ m, x ∉ seen) :
    dedupeGo seen m = m := by
  induction m generalizing seen with
  | nil => rfl
  | cons y ys ih =>
    rcases htrim y (by simp) with ⟨hy1, hy2⟩
    rcases List.nodup_cons.mp hnd with ⟨hy3, hnd2⟩
    simp only [dedupeGo, hy1]
    rw [if_neg hy2, if_neg (show ¬ seen.contains y = true by
      simpa using hseen y (by simp))]
    congr 1
    apply ih (fun x hx => htrim x (by simp [hx])) hnd2
    intro x hx
    simp only [List.mem_cons]
    rintro (rfl | hc)
    · exact hy3 hx
    · exact hseen x (by simp [hx]) hc

/-- The deduplicated form of a bucket: trimmed non-empty items, no
duplicates. -/
theorem dedupe_mem {x : String} {l : List String} (h : x ∈ dedupe l) :
    jsTrim x = x ∧ x ≠ "" := by
  rcases dedupeGo_mem h with ⟨h1, h2, _⟩
  exact ⟨h1, h2⟩

theorem dedupe_nodup (l : List String) : (dedupe l).Nodup :=
  dedupeGo_nodup [] l

/-! ### Decimal rendering: digit-level characterization of `Nat.repr` -/

theorem char_eq_of_toNat {a b : Char} (h : a.toNat = b.toNat) : a = b :=
  Char.eq_of_val_eq (UInt32.toNat.inj h)

theorem digitChar_toNat {n : Nat} (h : n < 10) :
    (Nat.digitChar n).toNat = 48 + n := by
  interval_cases n <;> decide

theorem isDigit_iff {c : Char} : c.isDigit = true ↔ 48 ≤ c.toNat ∧ c.toNat ≤ 57 := by
  simp only [Char.isDigit, Bool.and_eq_true, decide_eq_true_eq]
  constructor
  · rintro ⟨h1, h2⟩
    have g1 : ('0' : Char).val ≤ c.val := h1
    have g2 : c.val ≤ ('9' : Char).val := h2
    have g1a : ('0' : Char).val.toNat ≤ c.val.toNat := by
      rw [UInt32.le_def, BitVec.le_def] at g1; exact g1
    have g2a : c.val.toNat ≤ ('9' : Char).val.toNat := by
      rw [UInt32.le_def, BitVec.le_def] at g2; exact g2
    exact ⟨g1a, g2a⟩
  · rintro ⟨h1, h2⟩
    constructor
    · show ('0' : Char).val ≤ c.val
      rw [UInt32.le_def, BitVec.le_def]
      exact h1
    · show c.val ≤ ('9' : Char).val
      rw [UInt32.le_def, BitVec.le_def]
      exact h2

theorem digitChar_isDigit {n : Nat} (h : n < 10) :
    (Nat.digitChar n).isDigit = true := by
  rw [isDigit_iff, digitChar_toNat h]
  omega

theorem toDigitsCore_step (f n : Nat) (ds : List Char) :
    Nat.toDigitsCore 10 (f + 1) n ds =
      (if n / 10 = 0 then Nat.digitChar (n % 10) :: ds
       else Nat.toDigitsCore 10 f (n / 10) (Nat.digitChar (n % 10) :: ds)) := by
  simp [Nat.toDigitsCore]

theorem toDigitsCore_eq_toDigits (f n : Nat) (ds : List Char) (h : n < f) :
    Nat.toDigitsCore 10 f n ds = Nat.toDigits 10 n ++ ds := by
  induction n using Nat.strong_induction_on generalizing f ds with
  | _ n ih =>
    obtain ⟨f2, rfl⟩ : ∃ f2, f = f2 + 1 := ⟨f - 1, by omega⟩
    rw [toDigitsCore_step]
    by_cases h0 : n / 10 = 0
    · rw [if_pos h0]
      show _ = Nat.toDigitsCore 10 (n + 1) n [] ++ ds
      rw [toDigitsCore_step, if_pos h0]
      rfl
    · rw [if_neg h0]
      have hlt : n / 10 < n := Nat.div_lt_self (by omega) (by omega)
      rw [ih (n / 10) hlt f2 _ (by omega)]
      show _ = Nat.toDigitsCore 10 (n + 1) n [] ++ ds
      rw [toDigitsCore_step, if_neg h0,
        ih (n / 10) hlt n _ (by omega)]
      simp

theorem toDigits_peel {n : Nat} (h : 10 ≤ n) :
    Nat.toDigits 10 n = Nat.toDigits 10 (n / 10) ++ [Nat.digitChar (n % 10)] := by
  show Nat.toDigitsCore 10 (n + 1) n [] = _
  rw [toDigitsCore_step, if_neg (by omega)]
  exact toDigitsCore_eq_toDigits n (n / 10) _ (Nat.div_lt_self (by omega) (by omega))

theorem toDigits_single {n : Nat} (h : n < 10) :
    Nat.toDigits 10 n = [Nat.digitChar n] := by
  show Nat.toDigitsCore 10 (n + 1) n [] = _
  rw [toDigitsCore_step, if_pos (by omega)]
  rw [Nat.mod_eq_of_lt h]

theorem repr_data_two {n : Nat} (h1 : 10 ≤ n) (h2 : n ≤ 99) :
    (Nat.repr n).data = [Nat.digitChar (n / 10), Nat.digitChar (n % 10)] := by
  show Nat.toDigits 10 n = _
  rw [toDigits_peel h1, toDigits_single (by omega)]
  rfl

theorem repr_data_one {n : Nat} (h : n < 10) :
    (Nat.repr n).data = [Nat.digitChar n] := by
  show Nat.toDigits 10 n = _
  exact toDigits_single h

theorem repr_data_four {n : Nat} (h1 : 1000 ≤ n) (h2 : n ≤ 9999) :
    (Nat.repr n).data =
      [Nat.digitChar (n / 1000), Nat.digitChar (n / 100 % 10),
       Nat.digitChar (n / 10 % 10), Nat.digitChar (n % 10)] := by
  show Nat.toDigits 10 n = _
  rw [toDigits_peel (by omega), toDigits_peel (by omega),
    toDigits_peel (by omega), toDigits_single (by omega)]
  norm_num [Nat.div_div_eq_div_mul]

theorem intRepr_nonneg {i : Int} (h : 0 ≤ i) : Int.repr i = Nat.repr i.toNat := by
  obtain ⟨m, rfl⟩ := Int.eq_ofNat_of_zero_le h
  rfl



theorem intRepr_data_four {y : Int} (h1 : 1000 ≤ y) (h2 : y ≤ 9999) :
    (Int.repr y).data = year4 y := by
  rw [intRepr_nonneg (by omega)]
  exact repr_data_four (by omega) (by omega)

theorem pad2_data {m : Int} (h1 : 0 ≤ m) (h2 : m ≤ 99) :
    (pad2 m).data = mm2 m := by
  unfold pad2 padStart2
  by_cases h : m < 10
  · rw [intRepr_nonneg h1]
    have hd := repr_data_one (n := m.toNat) (by omega)
    have hlen : (Nat.repr m.toNat).length = 1 := by
      show (Nat.repr m.toNat).data.length = 1
      rw [hd]
      rfl
    rw [if_neg (by omega), if_pos hlen]
    show ('0' :: (Nat.repr m.toNat).data) = mm2 m
    rw [hd]
    unfold mm2
    rw [Nat.div_eq_of_lt (by omega), Nat.mod_eq_of_lt (by omega)]
    rfl
  · rw [intRepr_nonneg h1]
    have hd := repr_data_two (n := m.toNat) (by omega) (by omega)
    have hlen : (Nat.repr m.toNat).length = 2 := by
      show (Nat.repr m.toNat).data.length = 2
      rw [hd]
      rfl
    rw [if_pos (by omega)]
    show (Nat.repr m.toNat).data = mm2 m
    rw [hd]
    rfl

theorem toISODate_data {y m d : Int} (hy1 : 1000 ≤ y) (hy2 : y ≤ 9999)
    (hm1 : 0 ≤ m) (hm2 : m ≤ 99) (hd1 : 0 ≤ d) (hd2 : d ≤ 99) :
    (toISODate y m d).data = year4 y ++ '-' :: (mm2 m ++ '-' :: mm2 d) := by
  unfold toISODate
  rw [String.data_append, String.data_append, String.data_append,
    String.data_append, intRepr_data_four hy1 hy2, pad2_data hm1 hm2,
    pad2_data hd1 hd2]
  simp

/-! ### Calendar arithmetic -/


theorem isLeap_iff {y : Int} :
    isLeap y = true ↔ ((y % 4 = 0 ∧ ¬ y % 100 = 0) ∨ y % 400 = 0) := by
  simp [isLeap]

theorem daysInMonth_ge {y m : Int} : 28 ≤ daysInMonth y m := by
  unfold daysInMonth
  split_ifs <;> omega

theorem daysInMonth_le {y m : Int} : daysInMonth y m ≤ 31 := by
  unfold daysInMonth
  split_ifs <;> omega

theorem dfc_day_pred {y m d : Int} (hm1 : 1 ≤ m) (hm2 : m ≤ 12) :
    daysFromCivil y m (d - 1) = daysFromCivil y m d - 1 := by
  simp only [daysFromCivil]
  split_ifs <;> omega

theorem dfc_month_pred {y m : Int} (hm1 : 2 ≤ m) (hm2 : m ≤ 12) :
    daysFromCivil y (m - 1) (daysInMonth y (m - 1)) = daysFromCivil y m 1 - 1 := by
  by_cases hL : isLeap y = true
  · have hL2 := isLeap_iff.mp hL
    interval_cases m <;>
      simp only [daysFromCivil, daysInMonth, isLeap] <;> norm_num <;> omega
  · have hL2 : ¬ ((y % 4 = 0 ∧ ¬ y % 100 = 0) ∨ y % 400 = 0) := fun hc => hL (isLeap_iff.mpr hc)
    interval_cases m <;>
      simp only [daysFromCivil, daysInMonth, isLeap] <;> norm_num <;> omega

theorem dfc_year_pred {y : Int} :
    daysFromCivil (y - 1) 12 31 = daysFromCivil y 1 1 - 1 := by
  simp only [daysFromCivil]
  norm_num
  omega

theorem prevDay_spec {y m d : Int} (h : ValidTriple y m d) :
    ValidTriple (prevDay (y, m, d)).1 (prevDay (y, m, d)).2.1 (prevDay (y, m, d)).2.2 ∧
    daysFromCivil (prevDay (y, m, d)).1 (prevDay (y, m, d)).2.1 (prevDay (y, m, d)).2.2 =
      daysFromCivil y m d - 1 ∧
    ((prevDay (y, m, d)).1 = y ∨
      ((prevDay (y, m, d)).1 = y - 1 ∧ (prevDay (y, m, d)).2.1 = 12 ∧
        (prevDay (y, m, d)).2.2 = 31)) := by
  rcases h with ⟨hm1, hm2, hd1, hd2⟩
  by_cases hd : d > 1
  · have he : prevDay (y, m, d) = (y, m, d - 1) := by
      simp [prevDay, hd]
    rw [he]
    dsimp only
    refine ⟨⟨hm1, hm2, by omega, by omega⟩, ?_, Or.inl rfl⟩
    exact dfc_day_pred hm1 hm2
  · by_cases hm : m > 1
    · have he : prevDay (y, m, d) = (y, m - 1, daysInMonth y (m - 1)) := by
        simp [prevDay, hd, hm]
      rw [he]
      dsimp only
      have hd28 : (28 : Int) ≤ daysInMonth y (m - 1) := daysInMonth_ge
      refine ⟨⟨by omega, by omega, by omega, le_refl _⟩, ?_, Or.inl rfl⟩
      have hdeq : d = 1 := by omega
      rw [hdeq] at *
      exact dfc_month_pred (by omega) hm2
    · have he : prevDay (y, m, d) = (y - 1, 12, 31) := by
        simp [prevDay, hd, hm]
      rw [he]
      dsimp only
      have hmeq : m = 1 := by omega
      have hdeq : d = 1 := by omega
      refine ⟨⟨by omega, by omega, by omega, ?_⟩, ?_, Or.inr ⟨rfl, rfl, rfl⟩⟩
      · show (31 : Int) ≤ daysInMonth (y - 1) 12
        unfold daysInMonth
        norm_num
      · rw [hmeq, hdeq]
        exact dfc_year_pred


theorem prevDays_succ_outer (k : Nat) (t : Int × Int × Int) :
    prevDays (k + 1) t = prevDay (prevDays k t) := by
  induction k generalizing t with
  | zero => rfl
  | succ k ih =>
    show prevDays (k + 1) (prevDay t) = _
    rw [ih (prevDay t)]
    rfl

theorem tripleLe_trans {t1 t2 t3 : Int × Int × Int}
    (h1 : tripleLe t1 t2) (h2 : tripleLe t2 t3) : tripleLe t1 t3 := by
  unfold tripleLe at *
  omega

theorem prevDay_eq (y m d : Int) :
    prevDay (y, m, d) =
      if d > 1 then (y, m, d - 1)
      else if m > 1 then (y, m - 1, daysInMonth y (m - 1))
      else (y - 1, 12, 31) := rfl

theorem prevDay_lex {y m d : Int} (h : ValidTriple y m d) :
    tripleLe (prevDay (y, m, d)) (y, m, d) := by
  rcases h with ⟨hm1, hm2, hd1, hd2⟩
  rw [prevDay_eq]
  unfold tripleLe
  split_ifs <;> dsimp only <;> omega

theorem prevDay_spec2 {t : Int × Int × Int} (h : ValidTriple t.1 t.2.1 t.2.2) :
    ValidTriple (prevDay t).1 (prevDay t).2.1 (prevDay t).2.2 ∧
    daysFromCivil (prevDay t).1 (prevDay t).2.1 (prevDay t).2.2 =
      daysFromCivil t.1 t.2.1 t.2.2 - 1 ∧
    ((prevDay t).1 = t.1 ∨
      ((prevDay t).1 = t.1 - 1 ∧ (prevDay t).2.1 = 12 ∧ (prevDay t).2.2 = 31)) := by
  rcases t with ⟨y, m, d⟩
  exact prevDay_spec h

theorem prevDay_lex2 {t : Int × Int × Int} (h : ValidTriple t.1 t.2.1 t.2.2) :
    tripleLe (prevDay t) t := by
  rcases t with ⟨y, m, d⟩
  exact prevDay_lex h

theorem prevDay_day_branch {t : Int × Int × Int} (h : t.2.2 > 1) :
    prevDay t = (t.1, t.2.1, t.2.2 - 1) := by
  rcases t with ⟨y, m, d⟩
  dsimp only at h ⊢
  simp [prevDay, h]

theorem prevDays_spec {y m d : Int} (h : ValidTriple y m d) (k : Nat) (hk : k ≤ 6) :
    ValidTriple (prevDays k (y, m, d)).1 (prevDays k (y, m, d)).2.1
      (prevDays k (y, m, d)).2.2 ∧
    daysFromCivil (prevDays k (y, m, d)).1 (prevDays k (y, m, d)).2.1
      (prevDays k (y, m, d)).2.2 = daysFromCivil y m d - k ∧
    tripleLe (prevDays k (y, m, d)) (y, m, d) ∧
    ((prevDays k (y, m, d)).1 = y ∨
      ((prevDays k (y, m, d)).1 = y - 1 ∧ (prevDays k (y, m, d)).2.1 = 12 ∧
        32 - (k : Int) ≤ (prevDays k (y, m, d)).2.2)) := by
  induction k with
  | zero =>
    refine ⟨h, by simp [prevDays], ?_, Or.inl rfl⟩
    right
    exact ⟨rfl, Or.inr ⟨rfl, le_refl _⟩⟩
  | succ k ih =>
    have hk6 : k ≤ 6 := by omega
    rcases ih hk6 with ⟨ihv, ihd, ihlex, ihyr⟩
    rw [prevDays_succ_outer]
    rcases prevDay_spec2 ihv with ⟨pv, pdfc, pshape⟩
    have plex : tripleLe (prevDay (prevDays k (y, m, d))) (prevDays k (y, m, d)) :=
      prevDay_lex2 ihv
    refine ⟨pv, ?_, tripleLe_trans plex ihlex, ?_⟩
    · rw [pdfc, ihd]
      push_cast
      ring
    · rcases ihyr with hsame | ⟨hy1, hm12, hd26⟩
      · rcases pshape with h1 | ⟨h1, h2, h3⟩
        · exact Or.inl (by omega)
        · refine Or.inr ⟨by omega, h2, ?_⟩
          rw [h3]
          push_cast
          omega
      · have hkc : (k : Int) ≤ 5 := by exact_mod_cast (show k ≤ 5 by omega)
        have hpd : (prevDays k (y, m, d)).2.2 > 1 := by omega
        have hstep := prevDay_day_branch hpd
        rw [hstep]
        dsimp only
        refine Or.inr ⟨by omega, by omega, ?_⟩
        push_cast
        omega

/-! ### Round trips between `toISODate` and the Date parse -/

theorem string_eq_of_data {a b : String} (h : a.data = b.data) : a = b := by
  cases a
  cases b
  exact congrArg String.mk h

theorem dvi_digitChar {n : Nat} (h : n < 10) :
    dvi (Nat.digitChar n) = (n : Int) := by
  unfold dvi
  rw [digitChar_toNat h]
  push_cast
  ring

theorem jsDateParse_toISODate {y m d : Int} (hy1 : 1000 ≤ y) (hy2 : y ≤ 9999)
    (hv : ValidTriple y m d) : jsDateParse (toISODate y m d) = some (y, m, d) := by
  rcases hv with ⟨hm1, hm2, hd1, hd2⟩
  have hd31 : d ≤ 31 := le_trans hd2 daysInMonth_le
  show jsDateParseL (toISODate y m d).data = _
  rw [toISODate_data hy1 hy2 (by omega) (by omega) (by omega) (by omega)]
  unfold year4 mm2
  simp only [List.cons_append, List.nil_append]
  obtain ⟨Y, rfl⟩ : ∃ Y : Nat, (Y : Int) = y := ⟨y.toNat, Int.toNat_of_nonneg (by omega)⟩
  obtain ⟨M, rfl⟩ : ∃ M : Nat, (M : Int) = m := ⟨m.toNat, Int.toNat_of_nonneg (by omega)⟩
  obtain ⟨D, rfl⟩ : ∃ D : Nat, (D : Int) = d := ⟨d.toNat, Int.toNat_of_nonneg (by omega)⟩
  simp only [Int.toNat_natCast]
  simp only [jsDateParseL]
  rw [if_pos (by
    simp only [Bool.and_eq_true]
    refine ⟨⟨⟨⟨⟨⟨⟨?_, ?_⟩, ?_⟩, ?_⟩, ?_⟩, ?_⟩, ?_⟩, ?_⟩ <;>
      exact digitChar_isDigit (by omega))]
  have e1 : dvi (Nat.digitChar (Y / 1000)) = ((Y / 1000 : Nat) : Int) :=
    dvi_digitChar (by omega)
  have e2 : dvi (Nat.digitChar (Y / 100 % 10)) = ((Y / 100 % 10 : Nat) : Int) :=
    dvi_digitChar (by omega)
  have e3 : dvi (Nat.digitChar (Y / 10 % 10)) = ((Y / 10 % 10 : Nat) : Int) :=
    dvi_digitChar (by omega)
  have e4 : dvi (Nat.digitChar (Y % 10)) = ((Y % 10 : Nat) : Int) :=
    dvi_digitChar (by omega)
  have e5 : dvi (Nat.digitChar (M / 10)) = ((M / 10 : Nat) : Int) :=
    dvi_digitChar (by omega)
  have e6 : dvi (Nat.digitChar (M % 10)) = ((M % 10 : Nat) : Int) :=
    dvi_digitChar (by omega)
  have e7 : dvi (Nat.digitChar (D / 10)) = ((D / 10 : Nat) : Int) :=
    dvi_digitChar (by omega)
  have e8 : dvi (Nat.digitChar (D % 10)) = ((D % 10 : Nat) : Int) :=
    dvi_digitChar (by omega)
  simp only [e1, e2, e3, e4, e5, e6, e7, e8]
  have hyv : 1000 * ((Y / 1000 : Nat) : Int) + 100 * ((Y / 100 % 10 : Nat) : Int) +
      10 * ((Y / 10 % 10 : Nat) : Int) + ((Y % 10 : Nat) : Int) = (Y : Int) := by
    omega
  have hmv : 10 * ((M / 10 : Nat) : Int) + ((M % 10 : Nat) : Int) = (M : Int) := by
    omega
  have hdv : 10 * ((D / 10 : Nat) : Int) + ((D % 10 : Nat) : Int) = (D : Int) := by
    omega
  simp only [hyv, hmv, hdv]
  rw [if_pos ⟨hm1, hm2, hd1, hd2⟩]

theorem jsDateParse_some {s : String} {y m d : Int}
    (h : jsDateParse s = some (y, m, d)) :
    ValidTriple y m d ∧ 0 ≤ y ∧ y ≤ 9999 ∧ (1000 ≤ y → s = toISODate y m d) := by
  unfold jsDateParse jsDateParseL at h
  split at h
  case h_2 => cases h
  case h_1 y1 y2 y3 y4 m1 m2 d1 d2 heq =>
    by_cases hdig : (y1.isDigit && y2.isDigit && y3.isDigit && y4.isDigit &&
        m1.isDigit && m2.isDigit && d1.isDigit && d2.isDigit) = true
    swap
    · rw [if_neg hdig] at h; cases h
    rw [if_pos hdig] at h
    simp only [Bool.and_eq_true] at hdig
    obtain ⟨⟨⟨⟨⟨⟨⟨hg1, hg2⟩, hg3⟩, hg4⟩, hg5⟩, hg6⟩, hg7⟩, hg8⟩ := hdig
    rw [isDigit_iff] at hg1 hg2 hg3 hg4 hg5 hg6 hg7 hg8
    by_cases hcond : 1 ≤ 10 * dvi m1 + dvi m2 ∧ 10 * dvi m1 + dvi m2 ≤ 12 ∧
        1 ≤ 10 * dvi d1 + dvi d2 ∧ 10 * dvi d1 + dvi d2 ≤
          daysInMonth (1000 * dvi y1 + 100 * dvi y2 + 10 * dvi y3 + dvi y4)
            (10 * dvi m1 + dvi m2)
    swap
    · rw [if_neg hcond] at h; cases h
    rw [if_pos hcond] at h
    simp only [Option.some.injEq, Prod.mk.injEq] at h
    obtain ⟨hye, hme, hde⟩ := h
    unfold dvi at *
    have hyval : 1000 * ((y1.toNat : Int) - 48) + 100 * ((y2.toNat : Int) - 48) +
        10 * ((y3.toNat : Int) - 48) + ((y4.toNat : Int) - 48) = y := hye
    refine ⟨⟨by omega, by omega, by omega, ?_⟩, by omega, by omega, ?_⟩
    · have := hcond.2.2.2
      rw [hye, hme] at this
      rw [← hde]
      exact this
    · intro hy1000
      apply string_eq_of_data
      symm
      rw [toISODate_data (by omega) (by omega) (by omega) (by omega) (by omega)
        (by omega), heq]
      unfold year4 mm2
      simp only [List.cons_append, List.nil_append]
      have hchar : ∀ (c : Char) (n : Nat), 48 ≤ c.toNat → c.toNat ≤ 57 →
          n < 10 → c.toNat = 48 + n → Nat.digitChar n = c := by
        intro c n hc1 hc2 hn hc3
        apply char_eq_of_toNat
        rw [digitChar_toNat hn]
        omega
      congr 1
      · exact hchar y1 _ hg1.1 hg1.2 (by omega) (by omega)
      congr 1
      · exact hchar y2 _ hg2.1 hg2.2 (by omega) (by omega)
      congr 1
      · exact hchar y3 _ hg3.1 hg3.2 (by omega) (by omega)
      congr 1
      · exact hchar y4 _ hg4.1 hg4.2 (by omega) (by omega)
      congr 1
      congr 1
      · exact hchar m1 _ hg5.1 hg5.2 (by omega) (by omega)
      congr 1
      · exact hchar m2 _ hg6.1 hg6.2 (by omega) (by omega)
      congr 1
      congr 1
      · exact hchar d1 _ hg7.1 hg7.2 (by omega) (by omega)
      congr 1
      · exact hchar d2 _ hg8.1 hg8.2 (by omega) (by omega)

/-! ### Lexicographic comparison of rendered dates -/

theorem leChars_lt_head {a b : Char} {u v : List Char} (h : a.toNat < b.toNat) :
    leChars (a :: u) (b :: v) = true := by
  simp [leChars, h]

theorem leChars_eq_head {a b : Char} (h : a.toNat = b.toNat) (u v : List Char) :
    leChars (a :: u) (b :: v) = leChars u v := by
  simp [leChars, h]

theorem leChars_append_same (xs : List Char) (u v : List Char) :
    leChars (xs ++ u) (xs ++ v) = leChars u v := by
  induction xs with
  | nil => rfl
  | cons a t ih => rw [List.cons_append, List.cons_append, leChars_eq_head rfl, ih]

theorem leChars_two_lt {a b : Nat} (ha : a ≤ 99) (hb : b ≤ 99) (h : a < b)
    (u v : List Char) :
    leChars ([Nat.digitChar (a / 10), Nat.digitChar (a % 10)] ++ u)
      ([Nat.digitChar (b / 10), Nat.digitChar (b % 10)] ++ v) = true := by
  simp only [List.cons_append, List.nil_append]
  by_cases h1 : a / 10 < b / 10
  · exact leChars_lt_head (by rw [digitChar_toNat (by omega), digitChar_toNat (by omega)]; omega)
  · have he : a / 10 = b / 10 := by omega
    rw [leChars_eq_head (by rw [he]) _ _]
    exact leChars_lt_head (by
      rw [digitChar_toNat (by omega), digitChar_toNat (by omega)]
      omega)

theorem leChars_four_lt {a b : Nat} (ha : a ≤ 9999) (hb : b ≤ 9999) (h : a < b)
    (u v : List Char) :
    leChars ([Nat.digitChar (a / 1000), Nat.digitChar (a / 100 % 10),
        Nat.digitChar (a / 10 % 10), Nat.digitChar (a % 10)] ++ u)
      ([Nat.digitChar (b / 1000), Nat.digitChar (b / 100 % 10),
        Nat.digitChar (b / 10 % 10), Nat.digitChar (b % 10)] ++ v) = true := by
  simp only [List.cons_append, List.nil_append]
  by_cases h1 : a / 1000 < b / 1000
  · exact leChars_lt_head (by rw [digitChar_toNat (by omega), digitChar_toNat (by omega)]; omega)
  · have he1 : a / 1000 = b / 1000 := by omega
    rw [leChars_eq_head (by rw [he1]) _ _]
    by_cases h2 : a / 100 % 10 < b / 100 % 10
    · exact leChars_lt_head (by rw [digitChar_toNat (by omega), digitChar_toNat (by omega)]; omega)
    · have he2 : a / 100 % 10 = b / 100 % 10 := by omega
      rw [leChars_eq_head (by rw [he2]) _ _]
      by_cases h3 : a / 10 % 10 < b / 10 % 10
      · exact leChars_lt_head (by rw [digitChar_toNat (by omega), digitChar_toNat (by omega)]; omega)
      · have he3 : a / 10 % 10 = b / 10 % 10 := by omega
        rw [leChars_eq_head (by rw [he3]) _ _]
        exact leChars_lt_head (by
          rw [digitChar_toNat (by omega), digitChar_toNat (by omega)]
          omega)

theorem strLe_toISODate {ya ma da yb mb db : Int}
    (hya : 1000 ≤ ya) (hya2 : ya ≤ 9999) (hyb : 1000 ≤ yb) (hyb2 : yb ≤ 9999)
    (hma : 0 ≤ ma) (hma2 : ma ≤ 99) (hmb : 0 ≤ mb) (hmb2 : mb ≤ 99)
    (hda : 0 ≤ da) (hda2 : da ≤ 99) (hdb : 0 ≤ db) (hdb2 : db ≤ 99)
    (h : tripleLe (ya, ma, da) (yb, mb, db)) :
    strLe (toISODate ya ma da) (toISODate yb mb db) = true := by
  unfold strLe
  rw [toISODate_data hya hya2 hma hma2 hda hda2,
    toISODate_data hyb hyb2 hmb hmb2 hdb hdb2]
  unfold tripleLe at h
  dsimp only at h
  rcases h with hy | ⟨hy, hrest⟩
  · unfold year4
    exact leChars_four_lt (by omega) (by omega) (by omega) _ _
  · have hyy : year4 ya = year4 yb := by rw [hy]
    rw [hyy, leChars_append_same, leChars_eq_head rfl]
    rcases hrest with hm | ⟨hm, hd⟩
    · unfold mm2
      exact leChars_two_lt (by omega) (by omega) (by omega) _ _
    · have hmm : mm2 ma = mm2 mb := by rw [hm]
      rw [hmm, leChars_append_same, leChars_eq_head rfl]
      by_cases hdd : da < db
      · unfold mm2
        exact leChars_two_lt (by omega) (by omega) (by omega) _ _
      · have hde : da = db := by omega
        rw [hde]
        exact leChars_refl _

theorem mondayOf_spec {s : String} {y m d : Int}
    (hp : jsDateParse s = some (y, m, d)) (hy : 1001 ≤ y) :
    ∃ y2 m2 d2, mondayOf s = toISODate y2 m2 d2 ∧
      jsDateParse (mondayOf s) = some (y2, m2, d2) ∧
      dayOfWeek y2 m2 d2 = 1 ∧
      0 ≤ daysFromCivil y m d - daysFromCivil y2 m2 d2 ∧
      daysFromCivil y m d - daysFromCivil y2 m2 d2 ≤ 6 ∧
      strLe (mondayOf s) s = true := by
  obtain ⟨hv, hy0, hy9999, hiso⟩ := jsDateParse_some hp
  have hs : s = toISODate y m d := hiso (by omega)
  have hmond : mondayOf s =
      toISODate
        (prevDays ((if dayOfWeek y m d = 0 then 6 else dayOfWeek y m d - 1).toNat)
          (y, m, d)).1
        (prevDays ((if dayOfWeek y m d = 0 then 6 else dayOfWeek y m d - 1).toNat)
          (y, m, d)).2.1
        (prevDays ((if dayOfWeek y m d = 0 then 6 else dayOfWeek y m d - 1).toNat)
          (y, m, d)).2.2 := by
    unfold mondayOf
    rw [hp]
  have hdow : 0 ≤ dayOfWeek y m d ∧ dayOfWeek y m d < 7 := by
    unfold dayOfWeek
    omega
  set k : Nat := (if dayOfWeek y m d = 0 then 6 else dayOfWeek y m d - 1).toNat with hkdef
  have hk6 : k ≤ 6 := by
    rw [hkdef]
    split_ifs <;> omega
  have hkInt : (k : Int) = if dayOfWeek y m d = 0 then 6 else dayOfWeek y m d - 1 := by
    rw [hkdef]
    split_ifs <;> omega
  obtain ⟨pv, pdfc, plex, pyr⟩ := prevDays_spec hv k hk6
  have hy2a : 1000 ≤ (prevDays k (y, m, d)).1 := by
    rcases pyr with h1 | ⟨h1, _, _⟩ <;> omega
  have hy2b : (prevDays k (y, m, d)).1 ≤ 9999 := by
    have : tripleLe (prevDays k (y, m, d)) (y, m, d) := plex
    unfold tripleLe at this
    omega
  refine ⟨(prevDays k (y, m, d)).1, (prevDays k (y, m, d)).2.1,
    (prevDays k (y, m, d)).2.2, hmond, ?_, ?_, ?_, ?_, ?_⟩
  · rw [hmond]
    exact jsDateParse_toISODate hy2a hy2b pv
  · unfold dayOfWeek
    rw [pdfc]
    unfold dayOfWeek at hkInt hdow
    by_cases h0 : (daysFromCivil y m d + 4) % 7 = 0
    · rw [if_pos h0] at hkInt
      omega
    · rw [if_neg h0] at hkInt
      omega
  · rw [pdfc]
    omega
  · rw [pdfc]
    omega
  · rw [hmond, hs]
    rcases pv with ⟨pm1, pm2, pd1, pd2⟩
    have pd31 : (prevDays k (y, m, d)).2.2 ≤ 31 := le_trans pd2 daysInMonth_le
    rcases hv with ⟨hm1, hm2, hd1, hd2⟩
    have hd31 : d ≤ 31 := le_trans hd2 daysInMonth_le
    exact strLe_toISODate hy2a hy2b (by omega) (by omega) (by omega) (by omega)
      (by omega) (by omega) (by omega) (by omega) (by omega) (by omega) plex

/-! ### Monadic plumbing for the embedded `Except`-valued functions -/

theorem except_bind_ok {α β : Type} {x : Except Unit α} {f : α → Except Unit β}
    {b : β} : (x >>= f) = .ok b ↔ ∃ a, x = .ok a ∧ f a = .ok b := by
  cases x with
  | error e => simp [Bind.bind, Except.bind]
  | ok a => simp [Bind.bind, Except.bind]

theorem except_pure_eq {α : Type} (a : α) : (pure a : Except Unit α) = .ok a := rfl

theorem safeText_ok {c : Cell} (h : c.okCell = true) :
    safeText c = .ok (safeTextP c) := by
  cases c with
  | null => rfl
  | text s => rfl
  | num finite v => rfl
  | date valid y mo d =>
    cases valid with
    | false => simp [Cell.okCell] at h
    | true => rfl

theorem safeText_ok_inv {c : Cell} {s : String} (h : safeText c = .ok s) :
    s = safeTextP c := by
  cases c with
  | null => cases h; rfl
  | text t => cases h; rfl
  | num finite v => cases h; rfl
  | date valid y mo d =>
    cases valid with
    | false => simp [safeText] at h
    | true =>
      simp only [safeText, if_true] at h
      cases h
      rfl

theorem splitMenuItems_ok {c : Cell} (h : c.okCell = true) :
    splitMenuItems c = .ok (splitMenuItemsP c) := by
  unfold splitMenuItems splitMenuItemsP
  rw [safeText_ok h]
  dsimp only [Bind.bind, Except.bind]
  split_ifs with h2 <;> rfl

theorem accumCols_ok {row : List Cell} {cols : List Nat}
    (h : ∀ c ∈ cols, (cellAt row c).okCell = true) (bucket : List String) :
    accumCols row cols bucket =
      .ok (bucket ++ (cols.map (fun c => splitMenuItemsP (cellAt row c))).flatten) := by
  induction cols generalizing bucket with
  | nil =>
    show pure bucket = _
    rw [except_pure_eq]
    simp
  | cons c cs ih =>
    have hred : accumCols row (c :: cs) bucket =
        accumCols row cs (bucket ++ splitMenuItemsP (cellAt row c)) := by
      unfold accumCols
      rw [List.foldlM_cons, splitMenuItems_ok (h c (by simp))]
      rfl
    rw [hred, ih (fun c2 hc2 => h c2 (by simp [hc2]))]
    simp



theorem accumExtrasCols_ok {row : List Cell} {ek : String} {cols : List Nat}
    (h : ∀ c ∈ cols, (cellAt row c).okCell = true) (ex : List (String × List String)) :
    accumExtrasCols row ek cols ex = .ok (accumExtrasColsP row ek cols ex) := by
  induction cols generalizing ex with
  | nil => rfl
  | cons c cs ih =>
    unfold accumExtrasCols accumExtrasColsP at ih ⊢
    rw [List.foldlM_cons, List.foldl_cons]
    rw [show (do
        let items ← splitMenuItems (cellAt row c)
        if items = [] then pure ex else pure (assocAppend ex ek items) :
          Except Unit (List (String × List String))) =
      .ok (if splitMenuItemsP (cellAt row c) = [] then ex
           else assocAppend ex ek (splitMenuItemsP (cellAt row c))) by
        rw [splitMenuItems_ok (h c (by simp))]
        show (if _ then _ else _ : Except Unit _) = _
        split_ifs <;> rfl]
    exact ih (fun c2 hc2 => h c2 (by simp [hc2])) _

theorem accumExtras_ok {row : List Cell} {excols : List (String × List Nat)}
    (h : ∀ p ∈ excols, ∀ c ∈ p.2, (cellAt row c).okCell = true)
    (ex : List (String × List String)) :
    accumExtras row excols ex = .ok (accumExtrasP row excols ex) := by
  induction excols generalizing ex with
  | nil => rfl
  | cons p ps ih =>
    unfold accumExtras accumExtrasP at ih ⊢
    rw [List.foldlM_cons, List.foldl_cons]
    rw [accumExtrasCols_ok (h p (by simp)) ex]
    show Except.bind _ _ = _
    rw [show Except.bind (Except.ok (accumExtrasColsP row p.1 p.2 ex))
        (fun ex2 => ps.foldlM (fun ex3 p2 => accumExtrasCols row p2.1 p2.2 ex3) ex2) =
      ps.foldlM (fun ex3 p2 => accumExtrasCols row p2.1 p2.2 ex3)
        (accumExtrasColsP row p.1 p.2 ex) from rfl]
    exact ih (fun p2 hp2 => h p2 (by simp [hp2])) _

theorem processRow_anchor {cy : Int} {byg : Option Int} {cols : ColumnMap}
    {st : FoldState} {row : List Cell} {dd : String}
    (h : normalizeDateCell cy (cellAt row 0) byg = .ok (some dd)) :
    processRow cy byg cols st row = .ok
      { currentDate := some dd
        days := if containsKey st.days dd then st.days
                else st.days ++ [(dd, emptyDayAcc)]
        allDates := st.allDates ++ [dd] } := by
  unfold processRow
  rw [h]
  rfl

theorem processRow_skip {cy : Int} {byg : Option Int} {cols : ColumnMap}
    {st : FoldState} {row : List Cell}
    (h : normalizeDateCell cy (cellAt row 0) byg = .ok none)
    (h2 : st.currentDate = none) :
    processRow cy byg cols st row = .ok st := by
  unfold processRow
  rw [h, h2]
  rfl

theorem processRow_cont {cy : Int} {byg : Option Int} {cols : ColumnMap}
    {st : FoldState} {row : List Cell} {cur : String}
    (h : normalizeDateCell cy (cellAt row 0) byg = .ok none)
    (hcur : st.currentDate = some cur)
    (hb : ∀ c ∈ cols.breakfast, (cellAt row c).okCell = true)
    (hl : ∀ c ∈ cols.lunch, (cellAt row c).okCell = true)
    (hd : ∀ c ∈ cols.dinner, (cellAt row c).okCell = true)
    (he : ∀ p ∈ cols.extras, ∀ c ∈ p.2, (cellAt row c).okCell = true) :
    processRow cy byg cols st row = .ok
      { st with days := setAssoc st.days cur (DayMenuAcc.mk
          ((lookupD st.days cur emptyDayAcc).breakfast ++
            (cols.breakfast.map (fun c => splitMenuItemsP (cellAt row c))).flatten)
          ((lookupD st.days cur emptyDayAcc).lunch ++
            (cols.lunch.map (fun c => splitMenuItemsP (cellAt row c))).flatten)
          ((lookupD st.days cur emptyDayAcc).dinner ++
            (cols.dinner.map (fun c => splitMenuItemsP (cellAt row c))).flatten)
          (accumExtrasP row cols.extras
            (lookupD st.days cur emptyDayAcc).extras)) } := by
  have hred : processRow cy byg cols st row = (do
      let b ← accumCols row cols.breakfast (lookupD st.days cur emptyDayAcc).breakfast
      let l ← accumCols row cols.lunch (lookupD st.days cur emptyDayAcc).lunch
      let dn ← accumCols row cols.dinner (lookupD st.days cur emptyDayAcc).dinner
      let ex ← accumExtras row cols.extras (lookupD st.days cur emptyDayAcc).extras
      pure (FoldState.mk (some cur)
        (setAssoc st.days cur (DayMenuAcc.mk b l dn ex)) st.allDates) :
        Except Unit FoldState) := by
    unfold processRow
    rw [h, hcur]
    rfl
  rw [hred, accumCols_ok hb, accumCols_ok hl, accumCols_ok hd, accumExtras_ok he, hcur]
  rfl

theorem processRow_ok_inv {cy : Int} {byg : Option Int} {cols : ColumnMap}
    {st : FoldState} {row : List Cell} {st2 : FoldState}
    (h : processRow cy byg cols st row = .ok st2) :
    (∃ dd, st2.currentDate = some dd ∧ st2.allDates = st.allDates ++ [dd] ∧
      st2.days = (if containsKey st.days dd then st.days
                  else st.days ++ [(dd, emptyDayAcc)])) ∨
    st2 = st ∨
    (∃ cur v, st.currentDate = some cur ∧ st2.days = setAssoc st.days cur v ∧
      st2.allDates = st.allDates ∧ st2.currentDate = st.currentDate) := by
  unfold processRow at h
  cases hnd : normalizeDateCell cy (cellAt row 0) byg with
  | error e =>
    rw [hnd] at h
    cases h
  | ok v =>
    rw [hnd] at h
    cases v with
    | some dd =>
      left
      have h2 : (Except.ok
          { currentDate := some dd
            days := if containsKey st.days dd then st.days
                    else st.days ++ [(dd, emptyDayAcc)]
            allDates := st.allDates ++ [dd] } : Except Unit FoldState) =
          Except.ok st2 := h
      cases h2
      exact ⟨dd, rfl, rfl, rfl⟩
    | none =>
      cases hc : st.currentDate with
      | none =>
        right
        left
        rw [hc] at h
        have h2 : (Except.ok st : Except Unit FoldState) = Except.ok st2 := h
        cases h2
        rfl
      | some cur =>
        right
        right
        rw [hc] at h
        have h5 : (do
            let b ← accumCols row cols.breakfast (lookupD st.days cur emptyDayAcc).breakfast
            let l ← accumCols row cols.lunch (lookupD st.days cur emptyDayAcc).lunch
            let dn ← accumCols row cols.dinner (lookupD st.days cur emptyDayAcc).dinner
            let ex ← accumExtras row cols.extras (lookupD st.days cur emptyDayAcc).extras
            pure (FoldState.mk (some cur)
              (setAssoc st.days cur (DayMenuAcc.mk b l dn ex))
              st.allDates) : Except Unit FoldState) = Except.ok st2 := h
        obtain ⟨b, hb, h5⟩ := except_bind_ok.mp h5
        obtain ⟨l, hl, h5⟩ := except_bind_ok.mp h5
        obtain ⟨dn, hdn, h5⟩ := except_bind_ok.mp h5
        obtain ⟨ex, hex, h5⟩ := except_bind_ok.mp h5
        have h4 : (Except.ok (FoldState.mk (some cur)
            (setAssoc st.days cur (DayMenuAcc.mk b l dn ex))
            st.allDates) : Except Unit FoldState) = Except.ok st2 := h5
        cases h4
        exact ⟨cur, DayMenuAcc.mk b l dn ex, rfl, rfl, rfl, rfl⟩


theorem containsKey_iff {α : Type} {l : List (String × α)} {x : String} :
    containsKey l x = true ↔ ∃ p ∈ l, p.1 = x := by
  simp [containsKey, List.any_eq_true]

theorem containsKey_setAssoc {α : Type} {l : List (String × α)} {k x : String}
    {v : α} : containsKey (setAssoc l k v) x = containsKey l x := by
  unfold containsKey setAssoc
  rw [List.any_map]
  congr 1
  funext p
  by_cases hp : p.1 = k
  · simp [hp]
  · simp [hp]

theorem foldlM_processRow_inv {cy : Int} {byg : Option Int} {cols : ColumnMap} :
    ∀ (rows : List (List Cell)) (st st2 : FoldState),
      rows.foldlM (processRow cy byg cols) st = .ok st2 → StInv st → StInv st2 := by
  intro rows
  induction rows with
  | nil =>
    intro st st2 h hinv
    have h2 : Except.ok st = Except.ok st2 := h
    cases h2
    exact hinv
  | cons row rest ih =>
    intro st st2 h hinv
    rw [List.foldlM_cons] at h
    obtain ⟨st1, h1, h2⟩ := except_bind_ok.mp h
    refine ih st1 st2 h2 ?_
    rcases processRow_ok_inv h1 with ⟨dd, _, ha, hd⟩ | rfl | ⟨cur, v, _, hd, ha, _⟩
    · intro x
      rw [hd, ha]
      by_cases hck : containsKey st.days dd = true
      · rw [if_pos hck]
        rw [List.mem_append]
        constructor
        · intro hx
          exact Or.inl ((hinv x).mp hx)
        · rintro (hx | hx)
          · exact (hinv x).mpr hx
          · simp only [List.mem_singleton] at hx
            rw [hx]
            exact hck
      · rw [if_neg hck]
        rw [List.mem_append]
        constructor
        · intro hx
          rcases containsKey_iff.mp hx with ⟨p, hp, hpx⟩
          rcases List.mem_append.mp hp with hp2 | hp2
          · exact Or.inl ((hinv x).mp (containsKey_iff.mpr ⟨p, hp2, hpx⟩))
          · simp only [List.mem_singleton] at hp2
            rw [hp2] at hpx
            simp only [List.mem_singleton]
            exact Or.inr (by rw [← hpx])
        · rintro (hx | hx)
          · rcases containsKey_iff.mp ((hinv x).mpr hx) with ⟨p, hp, hpx⟩
            exact containsKey_iff.mpr ⟨p, by simp [hp], hpx⟩
          · simp only [List.mem_singleton] at hx
            refine containsKey_iff.mpr ⟨(dd, emptyDayAcc), by simp, by rw [hx]⟩
    · exact hinv
    · intro x
      rw [hd, ha, containsKey_setAssoc]
      exact hinv x

theorem parse_ok_inv {cy : Int} {rows : List (List Cell)} {fn site : String}
    {doc : MealDoc} (h : parseMealExcel cy rows fn site = .ok doc) :
    ∃ det st, detectHeaderColumns rows = .ok det ∧
      rows.foldlM (processRow cy ((parseBaseDateFromFilename fn).map (fun b => b.y))
        (resolveCols det site)) initState = .ok st ∧
      doc.site = site ∧ doc.filename = fn ∧
      doc.days = st.days.map (fun p => (p.1, cleanupDay p.2)) ∧
      doc.weekStart = (match sortStr (dedupKeep [] st.allDates) with
        | [] => none
        | u :: _ => some (mondayOf u)) := by
  unfold parseMealExcel at h
  obtain ⟨det, hdet, h⟩ := except_bind_ok.mp h
  obtain ⟨st, hst, h⟩ := except_bind_ok.mp h
  refine ⟨det, st, hdet, hst, ?_⟩
  have h2 : Except.ok (MealDoc.mk site fn
      (match sortStr (dedupKeep [] st.allDates) with
        | [] => none
        | u :: _ => some (mondayOf u))
      (st.days.map (fun p => (p.1, cleanupDay p.2)))) =
      (Except.ok doc : Except Unit MealDoc) := h
  cases h2
  exact ⟨rfl, rfl, rfl, rfl⟩

theorem containsKey_map_val {α β : Type} {l : List (String × α)}
    {f : α → β} {x : String} :
    containsKey (l.map (fun p => (p.1, f p.2))) x = containsKey l x := by
  induction l with
  | nil => rfl
  | cons p rest ih =>
    unfold containsKey at ih ⊢
    simp only [List.map_cons, List.any_cons, ih]

theorem nil_of_no_keys {α : Type} {l : List (String × α)}
    (h : ∀ x, containsKey l x = false) : l = [] := by
  cases l with
  | nil => rfl
  | cons p rest =>
    have := h p.1
    simp [containsKey] at this

theorem initState_inv : StInv initState := by
  intro x
  simp [StInv, initState, containsKey]

/-- The C2 invariant: in every successfully parsed document, `weekStart` is
absent exactly when no date anchor was found (empty `days`); and — provided
every date key is a strict-ISO calendar date with a four-digit year above
1000 — `weekStart` is a Monday, lexicographically at most every date key, and
at most six days before the minimum date key. -/
theorem parse_weekStart_invariant (cy : Int) (rows : List (List Cell))
    (fn site : String) (doc : MealDoc)
    (hok : parseMealExcel cy rows fn site = .ok doc) :
    (doc.weekStart = none ↔ doc.days = []) ∧
    (∀ ws, doc.weekStart = some ws →
      (∀ p ∈ doc.days, validKey p.1 = true) →
      isMondayKey ws = true ∧
      (∀ p ∈ doc.days, strLe ws p.1 = true) ∧
      (∃ kmin, containsKey doc.days kmin = true ∧
        (∀ p ∈ doc.days, strLe kmin p.1 = true) ∧
        (∃ n nmin, civilOfKey ws = some n ∧ civilOfKey kmin = some nmin ∧
          nmin - 6 ≤ n ∧ n ≤ nmin))) := by
  obtain ⟨det, st, hdet, hst, hsite, hfn, hdays, hws⟩ := parse_ok_inv hok
  have hinv : StInv st := foldlM_processRow_inv rows initState st hst initState_inv
  have hkeys : ∀ x, containsKey doc.days x = true ↔ x ∈ st.allDates := by
    intro x
    rw [hdays, containsKey_map_val]
    exact hinv x
  have hmemchain : ∀ x, x ∈ sortStr (dedupKeep [] st.allDates) ↔ x ∈ st.allDates := by
    intro x
    rw [mem_sortStr, mem_dedupKeep]
    simp
  constructor
  · cases hsort : sortStr (dedupKeep [] st.allDates) with
    | nil =>
      have hall : st.allDates = [] := by
        have hd2 : dedupKeep [] st.allDates = [] := sortStr_nil_iff.mp hsort
        by_contra hne
        cases hade : st.allDates with
        | nil => exact hne hade
        | cons a rest =>
          have : a ∈ dedupKeep [] st.allDates := by
            rw [mem_dedupKeep]
            simp [hade]
          rw [hd2] at this
          cases this
      have hdocdays : doc.days = [] := by
        apply nil_of_no_keys
        intro x
        by_contra hx
        simp only [Bool.not_eq_false] at hx
        have := (hkeys x).mp hx
        rw [hall] at this
        cases this
      rw [hws, hsort, hdocdays]
      simp
    | cons u rest =>
      have hu : u ∈ st.allDates := by
        rw [← hmemchain]
        rw [hsort]
        simp
      have hne : doc.days ≠ [] := by
        intro hnil
        have := (hkeys u).mpr hu
        rw [hnil] at this
        simp [containsKey] at this
      rw [hws, hsort]
      simp [hne]
  · intro ws hws2 hvalid
    cases hsort : sortStr (dedupKeep [] st.allDates) with
    | nil =>
      rw [hws, hsort] at hws2
      cases hws2
    | cons u rest =>
      rw [hws, hsort] at hws2
      have hwseq : ws = mondayOf u := by
        cases hws2
        rfl
      have hu : u ∈ st.allDates := by
        rw [← hmemchain, hsort]
        simp
      have huk : containsKey doc.days u = true := (hkeys u).mpr hu
      have hvu : validKey u = true := by
        rcases containsKey_iff.mp huk with ⟨p, hp, hpx⟩
        rw [← hpx]
        exact hvalid p hp
      unfold validKey at hvu
      cases hp : jsDateParse u with
      | none => rw [hp] at hvu; cases hvu
      | some t =>
        rcases t with ⟨y, m, d⟩
        rw [hp] at hvu
        simp only [Bool.and_eq_true, decide_eq_true_eq] at hvu
        obtain ⟨hy1001, hy9999⟩ := hvu
        obtain ⟨y2, m2, d2, hmnd, hp2, hdow, hd0, hd6, hle⟩ :=
          mondayOf_spec hp hy1001
        have hleall : ∀ p ∈ doc.days, strLe u p.1 = true := by
          intro p hpmem
          have hpk : p.1 ∈ st.allDates := by
            rw [← hkeys]
            exact containsKey_iff.mpr ⟨p, hpmem, rfl⟩
          have : p.1 ∈ sortStr (dedupKeep [] st.allDates) := (hmemchain p.1).mpr hpk
          exact sortStr_head_le hsort p.1 this
        refine ⟨?_, ?_, u, huk, hleall, ?_⟩
        · rw [hwseq]
          unfold isMondayKey
          rw [hp2]
          simp [hdow]
        · intro p hpmem
          rw [hwseq]
          exact strLe_trans hle (hleall p hpmem)
        · refine ⟨daysFromCivil y2 m2 d2, daysFromCivil y m d, ?_, ?_, by omega, by omega⟩
          · rw [hwseq]
            unfold civilOfKey
            rw [hp2]
            rfl
          · unfold civilOfKey
            rw [hp]
            rfl


theorem textPathE_eq (cy : Int) (byg : Option Int) (t : String) :
    textPathE cy byg t = .ok (textPathP cy byg t) := by
  unfold textPathE textPathP
  dsimp only
  split_ifs with h1
  · rfl
  · cases hmd : matchMD (jsTrim t).data with
    | some md =>
      rcases md with ⟨m, d⟩
      rfl
    | none =>
      cases hiso : matchISO (jsTrim t).data with
      | some tr =>
        rcases tr with ⟨y, m, d⟩
        rfl
      | none => rfl

theorem normalizeDateCell_ok {cell : Cell} (h : cell.okCell = true)
    (cy : Int) (byg : Option Int) :
    normalizeDateCell cy cell byg = .ok (normalizeDateCellP cy cell byg) := by
  cases cell with
  | date valid y mo d =>
    cases valid with
    | false => simp [Cell.okCell] at h
    | true => rfl
  | null =>
    show textPathE cy byg "" = _
    rw [textPathE_eq]
    rfl
  | text s =>
    show textPathE cy byg s = _
    rw [textPathE_eq]
    rfl
  | num finite v =>
    cases finite with
    | false =>
      show textPathE cy byg "NaN" = _
      rw [textPathE_eq]
      rfl
    | true =>
      cases hpd : parse_date_code v with
      | some tr =>
        rcases tr with ⟨y0, mo0, d0⟩
        have hred : normalizeDateCell cy (Cell.num true v) byg =
            (match (match parse_date_code v with
              | some (y, mo, d) =>
                if y ≠ 0 ∧ mo ≠ 0 ∧ d ≠ 0 then some (toISODate y mo d) else none
              | none => none) with
            | some s => Except.ok (some s)
            | none => textPathE cy byg (Int.repr v)) := rfl
        have hredP : normalizeDateCellP cy (Cell.num true v) byg =
            (match (match parse_date_code v with
              | some (y, mo, d) =>
                if y ≠ 0 ∧ mo ≠ 0 ∧ d ≠ 0 then some (toISODate y mo d) else none
              | none => none) with
            | some s => some s
            | none => textPathP cy byg (Int.repr v)) := rfl
        rw [hred, hredP, hpd]
        dsimp only
        by_cases hc : y0 ≠ 0 ∧ mo0 ≠ 0 ∧ d0 ≠ 0
        · rw [if_pos hc]
        · rw [if_neg hc]
          rw [textPathE_eq]
      | none =>
        have hred : normalizeDateCell cy (Cell.num true v) byg =
            (match (match parse_date_code v with
              | some (y, mo, d) =>
                if y ≠ 0 ∧ mo ≠ 0 ∧ d ≠ 0 then some (toISODate y mo d) else none
              | none => none) with
            | some s => Except.ok (some s)
            | none => textPathE cy byg (Int.repr v)) := rfl
        have hredP : normalizeDateCellP cy (Cell.num true v) byg =
            (match (match parse_date_code v with
              | some (y, mo, d) =>
                if y ≠ 0 ∧ mo ≠ 0 ∧ d ≠ 0 then some (toISODate y mo d) else none
              | none => none) with
            | some s => some s
            | none => textPathP cy byg (Int.repr v)) := rfl
        rw [hred, hredP, hpd]
        dsimp only
        rw [textPathE_eq]

theorem textPathP_shape {cy : Int} {byg : Option Int} {t s3 : String}
    (ht : textPathP cy byg t = some s3) : ∃ y m d, s3 = toISODate y m d := by
  unfold textPathP at ht
  dsimp only at ht
  by_cases h1 : jsTrim t = ""
  · rw [if_pos h1] at ht
    cases ht
  · rw [if_neg h1] at ht
    cases hmd : matchMD (jsTrim t).data with
    | some md =>
      rcases md with ⟨m, d⟩
      rw [hmd] at ht
      dsimp only at ht
      exact ⟨byg.getD cy, m, d, (Option.some.inj ht).symm⟩
    | none =>
      rw [hmd] at ht
      cases hiso : matchISO (jsTrim t).data with
      | some tr =>
        rcases tr with ⟨y, m, d⟩
        rw [hiso] at ht
        dsimp only at ht
        exact ⟨y, m, d, (Option.some.inj ht).symm⟩
      | none =>
        rw [hiso] at ht
        cases ht

theorem normalizeDateCellP_shape {cy : Int} {cell : Cell} {byg : Option Int}
    {s2 : String} (h : normalizeDateCellP cy cell byg = some s2) :
    ∃ y m d, s2 = toISODate y m d := by
  cases cell with
  | date valid y mo d =>
    cases valid with
    | false =>
      have h2 : textPathP cy byg (safeTextP (Cell.date false y mo d)) = some s2 := h
      exact textPathP_shape h2
    | true =>
      have h2 : some (toISODate y mo d) = some s2 := h
      exact ⟨y, mo, d, (Option.some.inj h2).symm⟩
  | null =>
    have h2 : textPathP cy byg (safeTextP Cell.null) = some s2 := h
    exact textPathP_shape h2
  | text s =>
    have h2 : textPathP cy byg (safeTextP (Cell.text s)) = some s2 := h
    exact textPathP_shape h2
  | num finite v =>
    cases finite with
    | false =>
      have h2 : textPathP cy byg (safeTextP (Cell.num false v)) = some s2 := h
      exact textPathP_shape h2
    | true =>
      rw [show normalizeDateCellP cy (Cell.num true v) byg =
          (match (match parse_date_code v with
            | some (y, mo, d) =>
              if y ≠ 0 ∧ mo ≠ 0 ∧ d ≠ 0 then some (toISODate y mo d) else none
            | none => none) with
          | some s => some s
          | none => textPathP cy byg (Int.repr v)) from rfl] at h
      cases hpd : parse_date_code v with
      | some tr =>
        rcases tr with ⟨y0, mo0, d0⟩
        rw [hpd] at h
        dsimp only at h
        by_cases hc : y0 ≠ 0 ∧ mo0 ≠ 0 ∧ d0 ≠ 0
        · rw [if_pos hc] at h
          dsimp only at h
          exact ⟨y0, mo0, d0, (Option.some.inj h).symm⟩
        · rw [if_neg hc] at h
          dsimp only at h
          exact textPathP_shape h
      | none =>
        rw [hpd] at h
        dsimp only at h
        exact textPathP_shape h

/-! ### Characterization of the header/column detector -/


theorem mem_setAdd {l : List Nat} {c x : Nat} :
    x ∈ setAdd l c ↔ x ∈ l ∨ x = c := by
  unfold setAdd
  split_ifs with h
  · have hc : c ∈ l := by simpa using h
    constructor
    · exact Or.inl
    · rintro (hx | rfl)
      · exact hx
      · exact hc
  · simp

theorem scanCell_breakfast (f : FoundSets) (c : Nat) (s : String) :
    (scanCell f c s).breakfast = fieldStep "조식" f.breakfast c s := by
  unfold scanCell fieldStep
  by_cases h0 : normCell s = ""
  · rw [if_pos h0, h0]
    rw [if_neg (by decide)]
  · rw [if_neg h0]

theorem scanCell_lunch (f : FoundSets) (c : Nat) (s : String) :
    (scanCell f c s).lunch = fieldStep "중식" f.lunch c s := by
  unfold scanCell fieldStep
  by_cases h0 : normCell s = ""
  · rw [if_pos h0, h0]
    rw [if_neg (by decide)]
  · rw [if_neg h0]

theorem scanCell_dinner (f : FoundSets) (c : Nat) (s : String) :
    (scanCell f c s).dinner = fieldStep "석식" f.dinner c s := by
  unfold scanCell fieldStep
  by_cases h0 : normCell s = ""
  · rw [if_pos h0, h0]
    rw [if_neg (by decide)]
  · rw [if_neg h0]

theorem scanCell_night (f : FoundSets) (c : Nat) (s : String) :
    (scanCell f c s).night = fieldStep "야식" f.night c s := by
  unfold scanCell fieldStep
  by_cases h0 : normCell s = ""
  · rw [if_pos h0, h0]
    rw [if_neg (by decide)]
  · rw [if_neg h0]

theorem scanCell_salad (f : FoundSets) (c : Nat) (s : String) :
    (scanCell f c s).salad = fieldStep "샐러드" f.salad c s := by
  unfold scanCell fieldStep
  by_cases h0 : normCell s = ""
  · rw [if_pos h0, h0]
    rw [if_neg (by decide)]
  · rw [if_neg h0]

theorem scanRowAux_field {kw : String} {g : FoundSets → List Nat}
    (hg : ∀ f c s, g (scanCell f c s) = fieldStep kw (g f) c s) :
    ∀ (cells : List Cell) (f : FoundSets) (c0 : Nat) (f2 : FoundSets),
      scanRowAux f c0 cells = .ok f2 →
      ∀ x, x ∈ g f2 ↔ x ∈ g f ∨ ∃ i cell, cells.get? i = some cell ∧ x = c0 + i ∧
        containsSub (normCell (safeTextP cell)).data kw.data = true := by
  intro cells
  induction cells with
  | nil =>
    intro f c0 f2 h x
    have h2 : (Except.ok f : Except Unit FoundSets) = Except.ok f2 := h
    cases h2
    simp
  | cons cell rest ih =>
    intro f c0 f2 h x
    obtain ⟨sT, hsT, h⟩ := except_bind_ok.mp h
    have hsEq := safeText_ok_inv hsT
    subst hsEq
    rw [ih (scanCell f c0 (safeTextP cell)) (c0 + 1) f2 h x]
    rw [hg]
    unfold fieldStep
    by_cases hhit : containsSub (normCell (safeTextP cell)).data kw.data = true
    · rw [if_pos hhit]
      constructor
      · rintro (hx | ⟨i, cell2, hi, hxi, hh⟩)
        · rcases mem_setAdd.mp hx with hx2 | rfl
          · exact Or.inl hx2
          · exact Or.inr ⟨0, cell, rfl, by omega, hhit⟩
        · exact Or.inr ⟨i + 1, cell2, by simpa using hi, by omega, hh⟩
      · rintro (hx | ⟨i, cell2, hi, hxi, hh⟩)
        · exact Or.inl (mem_setAdd.mpr (Or.inl hx))
        · cases i with
          | zero =>
            have : cell2 = cell := by
              simp only [List.get?] at hi
              exact (Option.some.inj hi).symm
            exact Or.inl (mem_setAdd.mpr (Or.inr (by omega)))
          | succ j =>
            exact Or.inr ⟨j, cell2, by simpa using hi, by omega, hh⟩
    · rw [if_neg hhit]
      constructor
      · rintro (hx | ⟨i, cell2, hi, hxi, hh⟩)
        · exact Or.inl hx
        · exact Or.inr ⟨i + 1, cell2, by simpa using hi, by omega, hh⟩
      · rintro (hx | ⟨i, cell2, hi, hxi, hh⟩)
        · exact Or.inl hx
        · cases i with
          | zero =>
            have hc2 : cell2 = cell := by
              simp only [List.get?] at hi
              exact (Option.some.inj hi).symm
            rw [hc2] at hh
            exact absurd hh hhit
          | succ j =>
            exact Or.inr ⟨j, cell2, by simpa using hi, by omega, hh⟩

theorem scanRows_field {kw : String} {g : FoundSets → List Nat}
    (hg : ∀ f c s, g (scanCell f c s) = fieldStep kw (g f) c s) :
    ∀ (rws : List (List Cell)) (f : FoundSets) (f2 : FoundSets),
      scanRows f rws = .ok f2 →
      ∀ x, x ∈ g f2 ↔ x ∈ g f ∨ ∃ row ∈ rws, ∃ cell, row.get? x = some cell ∧
        containsSub (normCell (safeTextP cell)).data kw.data = true := by
  intro rws
  induction rws with
  | nil =>
    intro f f2 h x
    have h2 : (Except.ok f : Except Unit FoundSets) = Except.ok f2 := h
    cases h2
    simp
  | cons row rest ih =>
    intro f f2 h x
    obtain ⟨f1, hf1, h⟩ := except_bind_ok.mp h
    rw [ih f1 f2 h x, scanRowAux_field hg row f 0 f1 hf1 x]
    constructor
    · rintro ((hx | ⟨i, cell, hi, hxi, hh⟩) | ⟨row2, hrow2, cell, hc, hh⟩)
      · exact Or.inl hx
      · refine Or.inr ⟨row, by simp, cell, ?_, hh⟩
        rw [show x = i by omega]
        exact hi
      · exact Or.inr ⟨row2, by simp [hrow2], cell, hc, hh⟩
    · rintro (hx | ⟨row2, hrow2, cell, hc, hh⟩)
      · exact Or.inl (Or.inl hx)
      · rcases List.mem_cons.mp hrow2 with rfl | hrow3
        · exact Or.inl (Or.inr ⟨x, cell, hc, by omega, hh⟩)
        · exact Or.inr ⟨row2, hrow3, cell, hc, hh⟩

theorem mem_insertNat {x y : Nat} {l : List Nat} :
    x ∈ insertNat y l ↔ x = y ∨ x ∈ l := by
  induction l with
  | nil => simp [insertNat]
  | cons z zs ih =>
    simp only [insertNat]
    by_cases h : y ≤ z
    · rw [if_pos h]
      simp
    · rw [if_neg h]
      simp only [List.mem_cons, ih]
      tauto

theorem mem_sortNat {x : Nat} {l : List Nat} : x ∈ sortNat l ↔ x ∈ l := by
  induction l with
  | nil => simp [sortNat]
  | cons y ys ih =>
    simp only [sortNat, List.foldr_cons] at *
    rw [mem_insertNat, ih]
    simp


theorem detect_char {rows : List (List Cell)} {det : Detected}
    (h : detectHeaderColumns rows = .ok det) (x : Nat) :
    (x ∈ det.breakfast ↔ gridHits rows "조식" x) ∧
    (x ∈ det.lunch ↔ gridHits rows "중식" x) ∧
    (x ∈ det.dinner ↔ gridHits rows "석식" x) ∧
    (x ∈ det.night ↔ gridHits rows "야식" x) ∧
    (x ∈ det.salad ↔ gridHits rows "샐러드" x) := by
  unfold detectHeaderColumns at h
  obtain ⟨f, hf, h⟩ := except_bind_ok.mp h
  have h2 : (Except.ok (Detected.mk (sortNat f.breakfast) (sortNat f.lunch)
      (sortNat f.dinner) (sortNat f.night) (sortNat f.salad)) :
      Except Unit Detected) = Except.ok det := h
  cases h2
  refine ⟨?_, ?_, ?_, ?_, ?_⟩ <;>
    simp only [mem_sortNat]
  · rw [scanRows_field scanCell_breakfast (rows.take 35) emptyFound f hf x]
    simp [emptyFound, gridHits]
  · rw [scanRows_field scanCell_lunch (rows.take 35) emptyFound f hf x]
    simp [emptyFound, gridHits]
  · rw [scanRows_field scanCell_dinner (rows.take 35) emptyFound f hf x]
    simp [emptyFound, gridHits]
  · rw [scanRows_field scanCell_night (rows.take 35) emptyFound f hf x]
    simp [emptyFound, gridHits]
  · rw [scanRows_field scanCell_salad (rows.take 35) emptyFound f hf x]
    simp [emptyFound, gridHits]

theorem cellAt_oob {row : List Cell} {c : Nat} (h : row.length ≤ c) :
    cellAt row c = Cell.null := by
  unfold cellAt
  exact List.getD_eq_default _ _ (by omega)

theorem splitMenuItems_blank {s : String}
    (h : jsTrim (String.mk ((s.data.filter (fun c => c ≠ '\r')).map
      (fun c => if c.toNat = 160 then ' ' else c))) = "") :
    splitMenuItems (Cell.text s) = .ok [] := by
  unfold splitMenuItems
  show (if jsTrim (String.mk ((s.data.filter (fun c => c ≠ '\r')).map
      (fun c => if c.toNat = 160 then ' ' else c))) = "" then pure []
    else _ : Except Unit (List String)) = _
  rw [if_pos h]
  rfl

theorem accumCols_of_empty {row : List Cell} {cols : List Nat}
    (h : ∀ c ∈ cols, splitMenuItems (cellAt row c) = .ok []) (bucket : List String) :
    accumCols row cols bucket = .ok bucket := by
  induction cols generalizing bucket with
  | nil =>
    show pure bucket = _
    rfl
  | cons c cs ih =>
    have hred : accumCols row (c :: cs) bucket = accumCols row cs (bucket ++ []) := by
      unfold accumCols
      rw [List.foldlM_cons, h c (by simp)]
      rfl
    rw [hred, List.append_nil]
    exact ih (fun c2 hc2 => h c2 (by simp [hc2])) bucket

theorem findSixAux_sound :
    ∀ (cs : List Char) (prev : Option Char) (a b c d e f : Char),
      findSixAux prev cs = some (a, b, c, d, e, f) →
      ∃ pre post, cs = pre ++ [a, b, c, d, e, f] ++ post ∧
        (a.isDigit ∧ b.isDigit ∧ c.isDigit ∧ d.isDigit ∧ e.isDigit ∧ f.isDigit) ∧
        (match pre.getLast? with
         | none => prev.all (fun p => !p.isDigit) = true
         | some g => g.isDigit = false) ∧
        (match post.head? with
         | none => True
         | some q => q.isDigit = false) := by
  intro cs
  induction cs with
  | nil => intro prev a b c d e f h; cases h
  | cons c0 rest ih =>
    intro prev a b c d e f h
    unfold findSixAux at h
    dsimp only at h
    by_cases hflank : prev.all (fun p => !p.isDigit) = true
    · rw [if_pos hflank] at h
      cases hts : takeSix (c0 :: rest) with
      | none =>
        rw [hts] at h
        dsimp only at h
        exact (by
          obtain ⟨pre, post, hsplit, hdig, hpre, hpost⟩ := ih (some c0) a b c d e f h
          refine ⟨c0 :: pre, post, by rw [hsplit]; rfl, hdig, ?_, hpost⟩
          cases hpl : pre.getLast? with
          | none =>
            have hpe : pre = [] := by
              cases pre with
              | nil => rfl
              | cons p ps => simp at hpl
            subst hpe
            simpa using hpre
          | some g =>
            rw [hpl] at hpre
            have hcg : (c0 :: pre).getLast? = some g := by
              cases pre with
              | nil => simp at hpl
              | cons p ps =>
                rw [List.getLast?_cons_cons]
                exact hpl
            rw [hcg]
            exact hpre)
      | some r =>
        rcases r with ⟨⟨a2, b2, c2, d2, e2, f2⟩, after⟩
        rw [hts] at h
        dsimp only at h
        by_cases hafter : after.head?.all (fun q => !q.isDigit) = true
        · rw [if_pos hafter] at h
          simp only [Option.some.injEq, Prod.mk.injEq] at h
          obtain ⟨rfl, rfl, rfl, rfl, rfl, rfl⟩ := h
          have hts2 := hts
          unfold takeSix at hts2
          cases rest with
          | nil => cases hts2
          | cons x1 r1 =>
            cases r1 with
            | nil => cases hts2
            | cons x2 r2 =>
              cases r2 with
              | nil => cases hts2
              | cons x3 r3 =>
                cases r3 with
                | nil => cases hts2
                | cons x4 r4 =>
                  cases r4 with
                  | nil => cases hts2
                  | cons x5 r5 =>
                    dsimp only at hts2
                    by_cases hdg : (c0.isDigit && x1.isDigit && x2.isDigit &&
                        x3.isDigit && x4.isDigit && x5.isDigit) = true
                    · rw [if_pos hdg] at hts2
                      simp only [Option.some.injEq, Prod.mk.injEq] at hts2
                      obtain ⟨⟨rfl, rfl, rfl, rfl, rfl, rfl⟩, rfl⟩ := hts2
                      simp only [Bool.and_eq_true] at hdg
                      refine ⟨[], r5, rfl,
                        ⟨hdg.1.1.1.1.1, hdg.1.1.1.1.2, hdg.1.1.1.2, hdg.1.1.2,
                          hdg.1.2, hdg.2⟩, ?_, ?_⟩
                      · simpa using hflank
                      · cases hh : r5.head? with
                        | none => trivial
                        | some q =>
                          rw [hh] at hafter
                          simpa using hafter
                    · rw [if_neg hdg] at hts2
                      cases hts2
        · rw [if_neg hafter] at h
          dsimp only at h
          obtain ⟨pre, post, hsplit, hdig, hpre, hpost⟩ := ih (some c0) a b c d e f h
          refine ⟨c0 :: pre, post, by rw [hsplit]; rfl, hdig, ?_, hpost⟩
          cases hpl : pre.getLast? with
          | none =>
            have hpe : pre = [] := by
              cases pre with
              | nil => rfl
              | cons p ps => simp at hpl
            subst hpe
            simpa using hpre
          | some g =>
            rw [hpl] at hpre
            have hcg : (c0 :: pre).getLast? = some g := by
              cases pre with
              | nil => simp at hpl
              | cons p ps =>
                rw [List.getLast?_cons_cons]
                exact hpl
            rw [hcg]
            exact hpre
    · rw [if_neg hflank] at h
      dsimp only at h
      obtain ⟨pre, post, hsplit, hdig, hpre, hpost⟩ := ih (some c0) a b c d e f h
      refine ⟨c0 :: pre, post, by rw [hsplit]; rfl, hdig, ?_, hpost⟩
      cases hpl : pre.getLast? with
      | none =>
        have hpe : pre = [] := by
          cases pre with
          | nil => rfl
          | cons p ps => simp at hpl
        subst hpe
        simpa using hpre
      | some g =>
        rw [hpl] at hpre
        have hcg : (c0 :: pre).getLast? = some g := by
          cases pre with
          | nil => simp at hpl
          | cons p ps =>
            rw [List.getLast?_cons_cons]
            exact hpl
        rw [hcg]
        exact hpre

/-! ### The claims -/

/-- C1 (code_bug): contrary to the spec's claim that the cell date
normalizer raises no exception on any raw cell value, an invalid (NaN-valued)
Date object — anticipated by the normalizer's own validity guard — reaches
`safeText`, whose unguarded `toISOString` raises a RangeError; the parse then
fails as a whole even though the container was perfectly readable.  The
embedded functions evaluate to `.error` at this input. -/
theorem claim_C1_invalid_date_raises :
    normalizeDateCell 2026 (Cell.date false 0 0 0) none = .error () ∧
    safeText (Cell.date false 0 0 0) = .error () ∧
    splitMenuItems (Cell.date false 0 0 0) = .error () ∧
    parseMealExcel 2026 [[Cell.date false 0 0 0]] "m.xlsx" "main" = .error () := by
  refine ⟨rfl, rfl, rfl, ?_⟩
  decide

/-- C6 (confirmed): the deduplication pass is idempotent — applying `dedupe`
twice yields the same sequence as applying it once, for every input
sequence. -/
theorem claim_C6_dedupe_idempotent (l : List String) :
    dedupe (dedupe l) = dedupe l := by
  have h1 : ∀ x ∈ dedupe l, jsTrim x = x ∧ x ≠ "" := fun x hx => dedupe_mem hx
  have h2 : (dedupe l).Nodup := dedupe_nodup l
  show dedupeGo [] (dedupe l) = dedupe l
  exact dedupeGo_fix h1 h2 (by intro x hx; simp)

/-- C5 (confirmed): in every document returned by the parser, each meal
sequence and every extras sequence holds trimmed, non-empty, duplicate-free
strings; an extras map present on a day is non-empty with no empty-valued
label, and is removed from the day entirely otherwise (`extras = none`). -/
theorem claim_C5_dayMenu_invariant (cy : Int) (rows : List (List Cell))
    (fn site : String) (doc : MealDoc)
    (hok : parseMealExcel cy rows fn site = .ok doc) :
    ∀ p ∈ doc.days,
      p.2.breakfast.Nodup ∧ (∀ x ∈ p.2.breakfast, jsTrim x = x ∧ x ≠ "") ∧
      p.2.lunch.Nodup ∧ (∀ x ∈ p.2.lunch, jsTrim x = x ∧ x ≠ "") ∧
      p.2.dinner.Nodup ∧ (∀ x ∈ p.2.dinner, jsTrim x = x ∧ x ≠ "") ∧
      (∀ ex, p.2.extras = some ex → ex ≠ [] ∧
        ∀ q ∈ ex, q.2 ≠ [] ∧ q.2.Nodup ∧ ∀ x ∈ q.2, jsTrim x = x ∧ x ≠ "") := by
  intro p hp
  obtain ⟨det, st, hdet, hst, hs1, hs2, hdays, hws⟩ := parse_ok_inv hok
  rw [hdays] at hp
  obtain ⟨q0, hq0, hpq⟩ := List.mem_map.mp hp
  rw [← hpq]
  dsimp only
  unfold cleanupDay
  dsimp only
  refine ⟨dedupe_nodup _, fun x hx => dedupe_mem hx,
    dedupe_nodup _, fun x hx => dedupe_mem hx,
    dedupe_nodup _, fun x hx => dedupe_mem hx, ?_⟩
  intro ex hex
  split_ifs at hex with hemp
  have hexeq := Option.some.inj hex
  rw [← hexeq]
  refine ⟨hemp, ?_⟩
  intro q hq
  rcases List.mem_filter.mp hq with ⟨hq1, hq2⟩
  have hq3 : q.2 ≠ [] := by simpa using hq2
  rcases List.mem_map.mp hq1 with ⟨r, hr, hrq⟩
  have hq4 : q.2 = dedupe r.2 := by rw [← hrq]
  refine ⟨hq3, ?_, ?_⟩
  · rw [hq4]
    exact dedupe_nodup _
  · intro x hx
    rw [hq4] at hx
    exact dedupe_mem hx

/-- Witness for C5 at a concrete grid: one anchor row and one continuation
row with a duplicated breakfast item. -/
theorem claim_C5_dayMenu_invariant_witness :
    ∃ doc, parseMealExcel 2026 [[Cell.text "1/12"],
        [Cell.null, Cell.text "김밥\n김밥\n라면"]] "260112_plan.xlsx" "main" =
        .ok doc ∧
      (∀ p ∈ doc.days, p.2.breakfast.Nodup) := by
  refine ⟨MealDoc.mk "main" "260112_plan.xlsx" (some "2026-01-12")
    [("2026-01-12", DayMenu.mk ["김밥", "라면"] [] [] none)], by decide, ?_⟩
  intro p hp
  exact (claim_C5_dayMenu_invariant 2026 [[Cell.text "1/12"],
    [Cell.null, Cell.text "김밥\n김밥\n라면"]] "260112_plan.xlsx" "main" _
    (by decide) p hp).1

/-- C7 (confirmed): per category, a non-empty detector result overrides the
per-site fallback, an empty one falls back; extras always come from the
fallback map; and every site other than "main" gets the cancer template. -/
theorem claim_C7_column_resolution (detected : Detected) (site : String) :
    (detected.breakfast ≠ [] → (resolveCols detected site).breakfast = detected.breakfast) ∧
    (detected.breakfast = [] →
      (resolveCols detected site).breakfast = (defaultColumnsForSite site).breakfast) ∧
    (detected.lunch ≠ [] → (resolveCols detected site).lunch = detected.lunch) ∧
    (detected.lunch = [] →
      (resolveCols detected site).lunch = (defaultColumnsForSite site).lunch) ∧
    (detected.dinner ≠ [] → (resolveCols detected site).dinner = detected.dinner) ∧
    (detected.dinner = [] →
      (resolveCols detected site).dinner = (defaultColumnsForSite site).dinner) ∧
    (resolveCols detected site).extras = (defaultColumnsForSite site).extras ∧
    (site ≠ "main" → defaultColumnsForSite site =
      ColumnMap.mk [1, 2] [3, 4] [5, 6] [("salad", [7]), ("night", [8])]) := by
  refine ⟨?_, ?_, ?_, ?_, ?_, ?_, rfl, ?_⟩
  · intro h
    unfold resolveCols
    dsimp only
    rw [if_pos h]
  · intro h
    unfold resolveCols
    dsimp only
    rw [if_neg (by simp [h])]
  · intro h
    unfold resolveCols
    dsimp only
    rw [if_pos h]
  · intro h
    unfold resolveCols
    dsimp only
    rw [if_neg (by simp [h])]
  · intro h
    unfold resolveCols
    dsimp only
    rw [if_pos h]
  · intro h
    unfold resolveCols
    dsimp only
    rw [if_neg (by simp [h])]
  · intro h
    unfold defaultColumnsForSite
    rw [if_neg h]

/-- Witness for C7: a detector result with only a lunch column, on the
"cancer" site. -/
theorem claim_C7_column_resolution_witness :
    (resolveCols (Detected.mk [] [9] [] [] []) "cancer").lunch = [9] ∧
    (resolveCols (Detected.mk [] [9] [] [] []) "cancer").breakfast = [1, 2] ∧
    defaultColumnsForSite "cancer" =
      ColumnMap.mk [1, 2] [3, 4] [5, 6] [("salad", [7]), ("night", [8])] := by
  have h := claim_C7_column_resolution (Detected.mk [] [9] [] [] []) "cancer"
  refine ⟨h.2.2.1 (by decide), ?_, h.2.2.2.2.2.2.2 (by decide)⟩
  rw [h.2.1 rfl, h.2.2.2.2.2.2.2 (by decide)]

/-- C8 (confirmed): a row whose column 0 normalizes to a date only sets the
anchor, records the date and creates its bucket idempotently, contributing no
menu text; a dateless row before the first anchor contributes nothing; every
other row appends the split items of its configured columns to the current
date's buckets, in configured-column order. -/
theorem claim_C8_row_classification (cy : Int) (byg : Option Int)
    (cols : ColumnMap) (st : FoldState) (row : List Cell) :
    (∀ dd, normalizeDateCell cy (cellAt row 0) byg = .ok (some dd) →
      processRow cy byg cols st row = .ok (FoldState.mk (some dd)
        (if containsKey st.days dd then st.days else st.days ++ [(dd, emptyDayAcc)])
        (st.allDates ++ [dd]))) ∧
    (normalizeDateCell cy (cellAt row 0) byg = .ok none → st.currentDate = none →
      processRow cy byg cols st row = .ok st) ∧
    (∀ cur, normalizeDateCell cy (cellAt row 0) byg = .ok none →
      st.currentDate = some cur →
      (∀ c ∈ cols.breakfast, (cellAt row c).okCell = true) →
      (∀ c ∈ cols.lunch, (cellAt row c).okCell = true) →
      (∀ c ∈ cols.dinner, (cellAt row c).okCell = true) →
      (∀ p ∈ cols.extras, ∀ c ∈ p.2, (cellAt row c).okCell = true) →
      processRow cy byg cols st row = .ok (FoldState.mk st.currentDate
        (setAssoc st.days cur (DayMenuAcc.mk
          ((lookupD st.days cur emptyDayAcc).breakfast ++
            (cols.breakfast.map (fun c => splitMenuItemsP (cellAt row c))).flatten)
          ((lookupD st.days cur emptyDayAcc).lunch ++
            (cols.lunch.map (fun c => splitMenuItemsP (cellAt row c))).flatten)
          ((lookupD st.days cur emptyDayAcc).dinner ++
            (cols.dinner.map (fun c => splitMenuItemsP (cellAt row c))).flatten)
          (accumExtrasP row cols.extras (lookupD st.days cur emptyDayAcc).extras)))
        st.allDates)) := by
  refine ⟨?_, ?_, ?_⟩
  · intro dd h
    exact processRow_anchor h
  · intro h h2
    exact processRow_skip h h2
  · intro cur h hcur hb hl hd he
    exact processRow_cont h hcur hb hl hd he

/-- Witness for C8 at a concrete anchor row on the fresh state. -/
theorem claim_C8_row_classification_witness :
    processRow 2026 (some 2026) (defaultColumnsForSite "main") initState
        [Cell.text "1/12"] =
      .ok (FoldState.mk (some "2026-01-12") [("2026-01-12", emptyDayAcc)]
        ["2026-01-12"]) := by
  have h := (claim_C8_row_classification 2026 (some 2026)
    (defaultColumnsForSite "main") initState [Cell.text "1/12"]).1
    "2026-01-12" (by decide)
  rw [h]
  decide

/-- C10 (confirmed): accumulation over a continuation row is total on the
configured column indices: an index at or beyond the row's length reads as a
null cell, null and whitespace-only cells split to no items without error,
and a column list all of whose cells split to no items leaves the bucket
unchanged. -/
theorem claim_C10_continuation_totality (row : List Cell) (bucket : List String) :
    (∀ c, row.length ≤ c → cellAt row c = Cell.null) ∧
    splitMenuItems Cell.null = .ok [] ∧
    (∀ s, jsTrim (String.mk ((s.data.filter (fun c => c ≠ '\r')).map
        (fun c => if c.toNat = 160 then ' ' else c))) = "" →
      splitMenuItems (Cell.text s) = .ok []) ∧
    (∀ cols, (∀ c ∈ cols, splitMenuItems (cellAt row c) = .ok []) →
      accumCols row cols bucket = .ok bucket) := by
  refine ⟨fun c h => cellAt_oob h, rfl,
    fun s h => splitMenuItems_blank h,
    fun cols h => accumCols_of_empty h bucket⟩

/-- Witness for C10: an out-of-range index, a whitespace-only cell, and a
column list hitting only such cells. -/
theorem claim_C10_continuation_totality_witness :
    cellAt [Cell.text "x"] 3 = Cell.null ∧
    splitMenuItems (Cell.text " \r\n ") = .ok [] ∧
    accumCols [Cell.text " \r\n "] [0, 5] ["김밥"] = .ok ["김밥"] := by
  have h1 := claim_C10_continuation_totality [Cell.text "x"] ["김밥"]
  have h2 := claim_C10_continuation_totality [Cell.text " \r\n "] ["김밥"]
  exact ⟨h1.1 3 (by decide), h2.2.2.1 " \r\n " (by decide),
    h2.2.2.2 [0, 5] (by decide)⟩

/-- C3 (corrected): on cells the normalizer survives, its result is the pure
`normalizeDateCellP`, whose every produced string has the `toISODate` shape
(year, two-digit month, two-digit day joined by hyphens) — but not
necessarily a CALENDAR date, since the `M/D` branch copies the matched month
and day unvalidated; that branch uses `baseYearGuess` when present, else
the current calendar year. -/
theorem claim_C3_normalize_shape (cy : Int) (byg : Option Int) :
    (∀ cell, cell.okCell = true →
      normalizeDateCell cy cell byg = .ok (normalizeDateCellP cy cell byg)) ∧
    (∀ cell s2, normalizeDateCellP cy cell byg = some s2 →
      ∃ y m d, s2 = toISODate y m d) ∧
    (∀ s m d, jsTrim s ≠ "" → matchMD (jsTrim s).data = some (m, d) →
      normalizeDateCellP cy (Cell.text s) byg =
        some (toISODate (byg.getD cy) m d)) := by
  refine ⟨fun cell h => normalizeDateCell_ok h cy byg,
    fun cell s2 h => normalizeDateCellP_shape h, ?_⟩
  intro s m d h1 h2
  show textPathP cy byg s = _
  unfold textPathP
  dsimp only
  rw [if_neg h1, h2]

/-- Counterexample for C3 as stated: "13/45" matches the `M/D` regexp, so the
normalizer returns "2026-13-45" — a string of the canonical shape that is not
a calendar date (the strict ISO reparse used by `mondayOf` rejects it). -/
theorem claim_C3_counterexample :
    normalizeDateCell 2026 (Cell.text "13/45") none = .ok (some "2026-13-45") ∧
    jsDateParse "2026-13-45" = none := by
  exact ⟨by decide, by decide⟩

/-- Witness for C3 on the documented example cell "1/12\n(월)" with a
filename-derived base year. -/
theorem claim_C3_normalize_shape_witness :
    normalizeDateCell 2026 (Cell.text "1/12\n(월)") (some 2026) =
      .ok (normalizeDateCellP 2026 (Cell.text "1/12\n(월)") (some 2026)) ∧
    (∃ y m d, "2026-01-12" = toISODate y m d) ∧
    normalizeDateCellP 2026 (Cell.text "1/12") (some 2026) =
      some (toISODate 2026 1 12) := by
  have h := claim_C3_normalize_shape 2026 (some 2026)
  exact ⟨h.1 (Cell.text "1/12\n(월)") (by decide),
    h.2.1 (Cell.text "1/12\n(월)") "2026-01-12" (by decide),
    h.2.2 "1/12" 1 12 (by decide) (by decide)⟩

/-- C4 (corrected): the detector's output families characterize exactly the
columns where the family keyword occurs as a substring of a cell in the scan
window; the corner family is dropped from the output, but a corner label does
not shield its column — a cell containing a meal keyword as a substring
assigns the column to that meal even when it is a corner label. -/
theorem claim_C4_detector_membership {rows : List (List Cell)} {det : Detected}
    (h : detectHeaderColumns rows = .ok det) (x : Nat) :
    (x ∈ det.breakfast ↔ gridHits rows "조식" x) ∧
    (x ∈ det.lunch ↔ gridHits rows "중식" x) ∧
    (x ∈ det.dinner ↔ gridHits rows "석식" x) ∧
    (x ∈ det.night ↔ gridHits rows "야식" x) ∧
    (x ∈ det.salad ↔ gridHits rows "샐러드" x) := by
  exact detect_char h x

/-- Counterexample for C4 as stated: a lone "중식코너" corner-label cell
nevertheless lands its column in the lunch set. -/
theorem claim_C4_counterexample :
    detectHeaderColumns [[Cell.text "중식코너"]] =
      .ok (Detected.mk [] [0] [] [] []) := by
  decide

/-- Witness for C4 on a one-cell breakfast header. -/
theorem claim_C4_detector_membership_witness :
    ∃ det, detectHeaderColumns [[Cell.text "조식"]] = .ok det ∧
      (0 ∈ det.breakfast ↔ gridHits [[Cell.text "조식"]] "조식" 0) := by
  exact ⟨Detected.mk [0] [] [] [] [], by decide,
    (claim_C4_detector_membership (by decide) 0).1⟩

/-- C9 (corrected): when the filename hint is produced, its digits come from
a contiguous six-digit run of the basename not flanked by digits, read as
YYMMDD with the year offset from 2000 — and, beyond the spec's sentence, the
month and day fields of the run must be nonzero, or the hint is rejected. -/
theorem claim_C9_filename_hint (filename : String) (b : BaseDate)
    (h : parseBaseDateFromFilename filename = some b) :
    ∃ a b2 c d e f pre post,
      (jsBasename filename).data = pre ++ [a, b2, c, d, e, f] ++ post ∧
      (a.isDigit ∧ b2.isDigit ∧ c.isDigit ∧ d.isDigit ∧ e.isDigit ∧ f.isDigit) ∧
      (match pre.getLast? with
       | none => True
       | some g => g.isDigit = false) ∧
      (match post.head? with
       | none => True
       | some q => q.isDigit = false) ∧
      b.y = 2000 + (10 * dvi a + dvi b2) ∧
      b.mo = 10 * dvi c + dvi d ∧
      b.d = 10 * dvi e + dvi f ∧
      b.mo ≠ 0 ∧ b.d ≠ 0 := by
  unfold parseBaseDateFromFilename at h
  cases hfind : findSixAux none (jsBasename filename).data with
  | none =>
    rw [hfind] at h
    cases h
  | some six =>
    rcases six with ⟨a, b2, c, d, e, f⟩
    rw [hfind] at h
    dsimp only at h
    obtain ⟨pre, post, hsplit, hdig, hpre, hpost⟩ :=
      findSixAux_sound _ none a b2 c d e f hfind
    by_cases hz : (2000 + (10 * dvi a + dvi b2) = 0 ∨
        10 * dvi c + dvi d = 0 ∨ 10 * dvi e + dvi f = 0)
    · rw [if_pos hz] at h
      cases h
    · rw [if_neg hz] at h
      have hb := Option.some.inj h
      push_neg at hz
      refine ⟨a, b2, c, d, e, f, pre, post, hsplit, hdig, ?_, ?_, ?_, ?_, ?_, ?_, ?_⟩
      · cases hpl : pre.getLast? with
        | none => trivial
        | some g =>
          rw [hpl] at hpre
          exact hpre
      · cases hph : post.head? with
        | none => trivial
        | some q =>
          rw [hph] at hpost
          exact hpost
      · rw [← hb]
      · rw [← hb]
      · rw [← hb]
      · rw [← hb]
        exact hz.2.1
      · rw [← hb]
        exact hz.2.2

/-- Counterexample for C9 as stated: "260012_mealplan.xlsx" carries the
unflanked six-digit run 260012, yet the function returns nothing-found
because the month field is zero; the documented examples still hold. -/
theorem claim_C9_counterexample :
    findSixAux none (jsBasename "260012_mealplan.xlsx").data =
      some ('2', '6', '0', '0', '1', '2') ∧
    parseBaseDateFromFilename "260012_mealplan.xlsx" = none ∧
    parseBaseDateFromFilename "260112_mealplan.xlsx" =
      some (BaseDate.mk 2026 1 12) ∧
    parseBaseDateFromFilename "mealplan.xlsx" = none := by
  exact ⟨by decide, by decide, by decide, by decide⟩

/-- Witness for C9 on the documented example filename. -/
theorem claim_C9_filename_hint_witness :
    (BaseDate.mk 2026 1 12).mo ≠ 0 ∧ (BaseDate.mk 2026 1 12).d ≠ 0 := by
  obtain ⟨a, b2, c, d, e, f, pre, post, hs, hd, hp1, hp2, hy, hmo, hdd, hm0, hd0⟩ :=
    claim_C9_filename_hint "260112_mealplan.xlsx" (BaseDate.mk 2026 1 12) (by decide)
  exact ⟨hm0, hd0⟩

/-- Counterexample for C2 as stated: a grid whose only anchor cell reads
"13/45" parses successfully with the day key "2026-13-45"; `weekStart`
becomes "NaN-NaN-NaN" (an Invalid Date inside `mondayOf`), which is neither
a Monday nor lexicographically at most the day key. -/
theorem claim_C2_counterexample :
    ∃ doc, parseMealExcel 2026 [[Cell.text "13/45"]] "x.xlsx" "main" = .ok doc ∧
      doc.weekStart = some "NaN-NaN-NaN" ∧
      containsKey doc.days "2026-13-45" = true ∧
      isMondayKey "NaN-NaN-NaN" = false ∧
      strLe "NaN-NaN-NaN" "2026-13-45" = false := by
  exact ⟨MealDoc.mk "main" "x.xlsx" (some "NaN-NaN-NaN")
    [("2026-13-45", DayMenu.mk [] [] [] none)],
    by decide, by decide, by decide, by decide, by decide⟩

/-- Witness for C2's amended invariant on a one-anchor grid whose date key is
a Monday. -/
theorem parse_weekStart_invariant_witness :
    isMondayKey "2026-01-12" = true ∧ strLe "2026-01-12" "2026-01-12" = true := by
  have h := parse_weekStart_invariant 2026 [[Cell.text "1/12"]]
    "260112_plan.xlsx" "main"
    (MealDoc.mk "main" "260112_plan.xlsx" (some "2026-01-12")
      [("2026-01-12", DayMenu.mk [] [] [] none)]) (by decide)
  have h2 := h.2 "2026-01-12" rfl (by decide)
  exact ⟨h2.1, h2.2.1 ("2026-01-12", DayMenu.mk [] [] [] none) (by decide)⟩
